import Mathlib

/-!
Shallow embedding of the `dribble` percolation engine
(`src/pypercol/percolator.py` and `src/pypercol/pynblist.py`).

Conventions of the embedding:
* Python floats are modelled by exact rationals (`ℚ`); the engine's
  vector arithmetic is plain `+`/`-` so this is the idealised exact
  semantics of the source.
* Per-site arrays of fixed length `nsites` are modelled as total
  functions `ℕ → _`; the append-grown per-cluster tables
  (`_first`, `_size`, `_is_wrapping`) are modelled as a function
  together with the current length `nclus` (entries at or beyond
  `nclus` are never read by the code).
* The unbounded `while self._next[i] >= 0` walk of `_merge_clusters`
  is modelled with explicit fuel `nsites`; for every state in which
  the Python loop terminates within `nsites` steps the two agree.
* `np.random.random_integers(0, nv-1)` is modelled by an oracle
  argument `sel`, reduced modulo the number of vacant sites.
-/

/-- Fractional 3-vectors with exact rational components, standing for the
numpy float triples used for coordinates, translation vectors and the
per-site displacement vectors `_vec`. -/
structure V3 where
  x : ℚ
  y : ℚ
  z : ℚ
deriving DecidableEq, Repr

def V3.zero : V3 := ⟨0, 0, 0⟩

/-- Addition on `ℚ`, spelled through `mkRat` so that it evaluates by
kernel reduction (`Rat.add_def'` identifies it with `+`). -/
def qadd (a b : ℚ) : ℚ := mkRat (a.num * b.den + b.num * a.den) (a.den * b.den)

/-- Subtraction on `ℚ` through `mkRat` (`Rat.sub_def'` identifies it
with `-`). -/
def qsub (a b : ℚ) : ℚ := mkRat (a.num * b.den - b.num * a.den) (a.den * b.den)

/-- Negation on `ℚ` through `mkRat`. -/
def qneg (a : ℚ) : ℚ := mkRat (-a.num) a.den

/-- One half, the wrapping-detection threshold `0.5` of the source. -/
def qhalf : ℚ := mkRat 1 2

instance : Add V3 := ⟨fun a b => ⟨qadd a.x b.x, qadd a.y b.y, qadd a.z b.z⟩⟩

instance : Sub V3 := ⟨fun a b => ⟨qsub a.x b.x, qsub a.y b.y, qsub a.z b.z⟩⟩

instance : Neg V3 := ⟨fun a => ⟨qneg a.x, qneg a.y, qneg a.z⟩⟩

/-- Per-cluster wrapping counters `_is_wrapping[c]`, one counter per
lattice direction. -/
abbrev W3 := ℕ × ℕ × ℕ

/-- Sum of the three wrapping counters, `np.sum(self._is_wrapping[c])`. -/
def wrapTot (w : W3) : ℕ := w.1 + w.2.1 + w.2.2

/-- Componentwise sum of wrapping counters (`l1 + l2` on numpy arrays). -/
def wAdd (a b : W3) : W3 := (a.1 + b.1, a.2.1 + b.2.1, a.2.2 + b.2.2)

def bumpX (w : W3) : W3 := (w.1 + 1, w.2.1, w.2.2)

def bumpY (w : W3) : W3 := (w.1, w.2.1 + 1, w.2.2)

def bumpZ (w : W3) : W3 := (w.1, w.2.1, w.2.2 + 1)

/-- Static lattice data used by the `Percolator` class: number of sites,
neighbor lists `_neighbors[i]`, translation vectors `_T_vectors[i][k]`
(one per neighbor slot), and fractional coordinates `_coo[i]`. -/
structure PLattice where
  nsites : ℕ
  nbrs : List (List ℕ)
  tvecs : List (List V3)
  coo : List V3

def nbrsOf (L : PLattice) (i : ℕ) : List ℕ := L.nbrs.getD i []

def tvAt (L : PLattice) (i k : ℕ) : V3 := (L.tvecs.getD i []).getD k V3.zero

def cooAt (L : PLattice) (i : ℕ) : V3 := L.coo.getD i V3.zero

/-- Number of distinct neighbor site ids of site `i`:
`len(set(self._neighbors[i]))`, the length of the bonds array of `i`. -/
def dcount (L : PLattice) (i : ℕ) : ℕ := (nbrsOf L i).dedup.length

/-- The engine's `_nbonds_tot`: half the sum over sites of the number of
distinct neighbor site ids (Python integer division by 2). -/
def nbondsTot (L : PLattice) : ℕ := (∑ i ∈ Finset.range L.nsites, dcount L i) / 2

/-- Well-formedness of the lattice data the percolator relies on:
neighbor ids in range, no site is its own neighbor, neighbor lists are
symmetric, and the first-occurrence index of every neighbor fits inside
the bonds array of length `dcount` (true for neighbor lists produced as
contiguous runs per neighbor id, as `get_nearest_neighbors` builds them). -/
def LatticeWF (L : PLattice) : Prop :=
  (∀ i < L.nsites, ∀ j ∈ nbrsOf L i, j < L.nsites) ∧
  (∀ i < L.nsites, i ∉ nbrsOf L i) ∧
  (∀ i < L.nsites, ∀ j ∈ nbrsOf L i, i ∈ nbrsOf L j) ∧
  (∀ i < L.nsites, ∀ j ∈ nbrsOf L i, (nbrsOf L i).indexOf j < dcount L i)

/-- Dynamic state of a `Percolator` instance (the fields assigned by
`__init__`/`reset`).  `percAttr` models the dynamic attribute
`_percolating` read by the `num_percolating` property: no statement of
the class ever assigns it, so it is `none` in every reachable state. -/
structure PState where
  cluster : ℕ → ℤ
  nclusters : ℤ
  nbonds : ℕ
  npercolating : ℕ
  nclusPercol : ℤ
  npaths : ℕ
  nclus : ℕ
  first : ℕ → ℤ
  size : ℕ → ℕ
  wrap : ℕ → W3
  largest : ℤ
  next : ℕ → ℤ
  vec : ℕ → V3
  occupied : List ℕ
  vacant : List ℕ
  bonds : ℕ → ℕ → Bool
  special : Bool
  numCommon : ℕ
  percAttr : Option (List ℕ)

/-- Python list read `lst[i]` with an `int` index: negative indices count
from the end of the list (used for `self._size[self._largest]`). -/
def pyGet (n : ℕ) (f : ℕ → ℕ) (i : ℤ) : ℕ :=
  if 0 ≤ i then f i.toNat else f ((n : ℤ) + i).toNat

/-- The state produced by `Percolator.reset()` (the `_special` rule
configuration lives on the object and is not touched by `reset`). -/
def resetState (L : PLattice) (special : Bool) (numCommon : ℕ) : PState where
  cluster := fun _ => -1
  nclusters := 0
  nbonds := 0
  npercolating := 0
  nclusPercol := 0
  npaths := 0
  nclus := 0
  first := fun _ => -1
  size := fun _ => 0
  wrap := fun _ => (0, 0, 0)
  largest := -1
  next := fun _ => -1
  vec := fun _ => V3.zero
  occupied := []
  vacant := List.range L.nsites
  bonds := fun _ _ => false
  special := special
  numCommon := numCommon
  percAttr := none

/-- The `num_percolating` property: `len(self._percolating)`.  Since the
attribute is never assigned, the lookup fails (`none`), modelling the
`AttributeError` raised by the source. -/
def num_percolating (s : PState) : Option ℕ := s.percAttr.map List.length

/-- `get_common_neighbors`: `list(set(nbrs[s1]) & set(nbrs[s2]))`,
modelled as the deduplicated list of neighbors of `s1` that are also
neighbors of `s2` (same underlying set). -/
def get_common_neighbors (L : PLattice) (s1 s2 : ℕ) : List ℕ :=
  ((nbrsOf L s1).filter (fun n => (nbrsOf L s2).contains n)).dedup

/-- The loop body of the predicate installed by
`set_special_percolation_rule`: walk the common neighbors, incrementing
`occupied` for each occupied one, and return `True` the first time the
running count reaches `num_common` (checked after every element). -/
def special_loop (cluster : ℕ → ℤ) (k : ℕ) : List ℕ → ℕ → Bool
  | [], _ => false
  | nb :: rest, occ =>
    let occ2 := if 0 ≤ cluster nb then occ + 1 else occ
    if k ≤ occ2 then true else special_loop cluster k rest occ2

/-- `self._check_special(site1, site2)`: the default rule returns `True`;
after `set_special_percolation_rule(num_common)` it runs the
common-neighbor loop. -/
def check_special (L : PLattice) (s : PState) (s1 s2 : ℕ) : Bool :=
  if s.special then special_loop s.cluster s.numCommon (get_common_neighbors L s1 s2) 0
  else true

/-- Effect of `set_special_percolation_rule(num_common)` on the state. -/
def set_special_percolation_rule (s : PState) (k : ℕ) : PState :=
  { s with special := true, numCommon := k }

/-- Number of occupied sites among the common neighbors of `i` and `j`. -/
def occCommon (L : PLattice) (s : PState) (i j : ℕ) : ℕ :=
  ((get_common_neighbors L i j).filter (fun n => decide (0 ≤ s.cluster n))).length

/-- Absolute value on `ℚ` (`abs(...)` in the source), written so that it
evaluates by reduction. -/
def qabs (q : ℚ) : ℚ := if q < 0 then qneg q else q

/-- Point update of a ℕ-indexed store (array slot assignment), written
with a non-dependent `if` so that it evaluates by reduction. -/
def updN {α : Type} (f : ℕ → α) (a : ℕ) (v : α) : ℕ → α :=
  fun x => if x = a then v else f x

/-- Write one entry of the two-dimensional bonds table. -/
def setBond (f : ℕ → ℕ → Bool) (a b : ℕ) : ℕ → ℕ → Bool :=
  fun i k => if i = a ∧ k = b then true else f i k

/-- Bond-bookkeeping step of `_merge_clusters` (lines 858-864): look up
the first-occurrence slot of `site2` in `neighbors[site1]`; if that bond
is not yet marked, mark it together with the symmetric entry and count
one new bond. -/
def bond_step (L : PLattice) (s : PState) (s1 s2 : ℕ) : PState :=
  let nb1 := (nbrsOf L s1).indexOf s2
  if s.bonds s1 nb1 then s
  else
    let nb2 := (nbrsOf L s2).indexOf s1
    { s with bonds := setBond (setBond s.bonds s1 nb1) s2 nb2,
             nbonds := s.nbonds + 1 }

/-- Same-cluster branch of `_merge_clusters` (lines 870-887): a nonzero
component of `dv` detects a wrapping path; on the transition from
non-wrapping to wrapping the cluster's sites become percolating. -/
def same_step (s : PState) (c1 : ℕ) (dv : V3) : PState :=
  let w1 := wrapTot (s.wrap c1)
  let sx := if qhalf < qabs dv.x then
      { s with wrap := updN s.wrap c1 (bumpX (s.wrap c1)),
               npaths := s.npaths + 1 } else s
  let sy := if qhalf < qabs dv.y then
      { sx with wrap := updN sx.wrap c1 (bumpY (sx.wrap c1)),
                npaths := sx.npaths + 1 } else sx
  let sz := if qhalf < qabs dv.z then
      { sy with wrap := updN sy.wrap c1 (bumpZ (sy.wrap c1)),
                npaths := sy.npaths + 1 } else sy
  if w1 = 0 ∧ 0 < wrapTot (sz.wrap c1) then
    { sz with npercolating := sz.npercolating + sz.size c1,
              nclusPercol := sz.nclusPercol + 1 }
  else sz

/-- Walk of the intrusive cluster list: start at `i` and follow `next`
while it is nonnegative.  `fuel` bounds the number of steps; in every
state where the Python `while` loop terminates within `fuel` steps the
two walks visit the same sites in the same order. -/
def chainWalk (nx : ℕ → ℤ) : ℕ → ℕ → List ℕ
  | 0, i => [i]
  | fuel + 1, i => if 0 ≤ nx i then i :: chainWalk nx fuel (nx i).toNat else [i]

/-- Member list of cluster `c`: the walk from `first[c]`. -/
def memOf (L : PLattice) (s : PState) (c : ℕ) : List ℕ :=
  chainWalk s.next L.nsites (s.first c).toNat

/-- The member walk of `_merge_clusters` (lines 899-907): visit the
sites of `mem` in order, adding `dv` to each visited site's `vec` and
relabelling its `cluster` to `c1`. -/
def walk_relabel (c1 : ℕ) (dv : V3) (mem : List ℕ) (s : PState) : PState :=
  mem.foldl (fun st i =>
      { st with vec := updN st.vec i (st.vec i + dv),
                cluster := updN st.cluster i (c1 : ℤ) }) s

/-- Percolating-site bookkeeping of the different-cluster branch
(lines 889-897), from the pre-merge wrapping state of both clusters. -/
def perc_account (s : PState) (c1 c2 : ℕ) : PState :=
  let w1 := wrapTot (s.wrap c1)
  let w2 := wrapTot (s.wrap c2)
  if 0 < w1 ∧ w2 = 0 then { s with npercolating := s.npercolating + s.size c2 }
  else if w1 = 0 ∧ 0 < w2 then { s with npercolating := s.npercolating + s.size c1 }
  else if 0 < w1 ∧ 0 < w2 then { s with nclusPercol := s.nclusPercol - 1 }
  else s

/-- Retirement of cluster `c2` (lines 925-935): popped when it is the
last id of the table, tombstoned otherwise. -/
def retire_step (s : PState) (c2 : ℕ) : PState :=
  if s.nclus = c2 + 1 then
    { s with nclus := c2 }
  else
    { s with first := updN s.first c2 (-1),
             size := updN s.size c2 0,
             wrap := updN s.wrap c2 (0, 0, 0) }

/-- Different-cluster branch of `_merge_clusters` (lines 888-935):
percolating-site bookkeeping from the pre-merge wrapping state, walk of
cluster `c2` shifting `vec` and relabelling `cluster`, O(1) splice of
the member list after `c1`'s head, size/largest/wrapping updates, and
retirement of `c2`. -/
def diff_step (L : PLattice) (s : PState) (c1 c2 : ℕ) (dv : V3) : PState :=
  let sP := perc_account s c1 c2
  let mem := chainWalk sP.next L.nsites (sP.first c2).toNat
  let sW := walk_relabel c1 dv mem sP
  let t := mem.getLastD 0
  let h := (sW.first c1).toNat
  let sN := { sW with next := updN (updN sW.next t (sW.next h)) h (sW.first c2) }
  let sS := { sN with size := updN sN.size c1 (sN.size c1 + sN.size c2) }
  let lg2 := if pyGet sS.nclus sS.size sS.largest < sS.size c1
             then (c1 : ℤ) else sS.largest
  let sWr := { sS with largest := lg2,
                       wrap := updN sS.wrap c1 (wAdd (sS.wrap c1) (sS.wrap c2)) }
  let sC := { sWr with nclusters := sWr.nclusters - 1 }
  retire_step sC c2

/-- `_merge_clusters(cluster1, site1, cluster2, site2, T2)`. -/
def merge_clusters (L : PLattice) (s : PState) (c1 s1 c2 s2 : ℕ) (T2 : V3) : PState :=
  if check_special L s s1 s2 then
    let sB := bond_step L s s1 s2
    let v12 := cooAt L s2 + T2 - cooAt L s1
    let dv := sB.vec s1 - v12 - sB.vec s2
    if c1 = c2 then same_step sB c1 dv else diff_step L sB c1 c2 dv
  else s

/-- Core of `add_percolating_site` once the new site and its position in
the vacant pool are fixed: move the site to `occupied`, create a fresh
singleton cluster, then merge with every occupied neighbor (and, when a
special rule is installed, re-examine the neighbor's own neighbors). -/
def add_site_at (L : PLattice) (s : PState) (site k : ℕ) : PState :=
  let s1 := { s with vacant := s.vacant.eraseIdx k, occupied := s.occupied ++ [site] }
  let newId := s1.nclus
  let s2 := { s1 with
      first := updN s1.first newId (site : ℤ),
      size := updN s1.size newId 1,
      wrap := updN s1.wrap newId ((0, 0, 0) : W3),
      cluster := updN s1.cluster site (newId : ℤ),
      nclusters := s1.nclusters + 1,
      nclus := newId + 1,
      vec := updN s1.vec site V3.zero }
  let s3 := if s2.largest < 0 then { s2 with largest := s2.cluster site } else s2
  (List.range (nbrsOf L site).length).foldl (fun st i =>
      let nb := (nbrsOf L site).getD i 0
      if 0 ≤ st.cluster nb then
        let st1 := merge_clusters L st (st.cluster nb).toNat nb
            (st.cluster site).toNat site (-(tvAt L site i))
        if st1.special then
          (List.range (nbrsOf L nb).length).foldl (fun st2 j =>
              let nb2 := (nbrsOf L nb).getD j 0
              if 0 ≤ st2.cluster nb2 then
                merge_clusters L st2 (st2.cluster nb2).toNat nb2
                  (st2.cluster nb).toNat nb (-(tvAt L nb j))
              else st2) st1
        else st1
      else st) s3

/-- Python truthiness test `if not site:` on the optional argument:
both `None` and the integer `0` are falsy. -/
def pyFalsy : Option ℕ → Bool
  | none => true
  | some v => v == 0

/-- `add_percolating_site(site=None)`.  `sel` is the oracle for the
uniform random draw over the vacant pool; an explicit `site` that is
absent from the vacant pool makes the Python `list.index` raise before
any mutation, so the state is returned unchanged. -/
def add_percolating_site (L : PLattice) (s : PState) (site? : Option ℕ) (sel : ℕ) : PState :=
  if s.vacant.length = 0 then s
  else if pyFalsy site? then
    let k := sel % s.vacant.length
    add_site_at L s (s.vacant.getD k 0) k
  else
    let v := site?.getD 0
    if v ∈ s.vacant then add_site_at L s v (s.vacant.indexOf v) else s

/-- Sum of `size[c]` over the clusters whose wrapping vector has a
positive component (tombstones have `wrapping = 0` and contribute 0). -/
def percSum (s : PState) : ℕ :=
  ∑ c ∈ Finset.range s.nclus, if 0 < wrapTot (s.wrap c) then s.size c else 0

/-- Total count of `True` entries over all per-site bonds arrays
(the array of site `i` has length `dcount L i`). -/
def totalTrue (L : PLattice) (s : PState) : ℕ :=
  ∑ i ∈ Finset.range L.nsites, ∑ k ∈ Finset.range (dcount L i),
    (if s.bonds i k then 1 else 0)

/-- Bond flag between adjacent sites, read the way the source reads it:
at the first-occurrence slot of `j` in `neighbors[i]`. -/
def bondAt (L : PLattice) (s : PState) (i j : ℕ) : Bool :=
  s.bonds i ((nbrsOf L i).indexOf j)

/-- States reachable by `reset` followed by any sequence of
`add_percolating_site` operations (optionally installing the special
rule along the way). -/
inductive Reachable (L : PLattice) : PState → Prop
  | reset (sp : Bool) (k : ℕ) : Reachable L (resetState L sp k)
  | add (s : PState) (site? : Option ℕ) (sel : ℕ) :
      Reachable L s → Reachable L (add_percolating_site L s site? sel)
  | rule (s : PState) (k : ℕ) :
      Reachable L s → Reachable L (set_special_percolation_rule s k)

/-- Periodic chain of 4 sites along the first lattice direction
(scenario 1 of the spec): each site has neighbors at `±x`, with the
wrap-around bonds 0↔3 carrying translations `∓(1,0,0)`. -/
def chain4 : PLattice where
  nsites := 4
  nbrs := [[1, 3], [0, 2], [1, 3], [2, 0]]
  tvecs := [[V3.zero, ⟨-1, 0, 0⟩], [V3.zero, V3.zero],
            [V3.zero, V3.zero], [V3.zero, ⟨1, 0, 0⟩]]
  coo := [⟨0, 0, 0⟩, ⟨mkRat 1 4, 0, 0⟩, ⟨mkRat 1 2, 0, 0⟩, ⟨mkRat 3 4, 0, 0⟩]

/-- Periodic 2-site chain: each site sees the other through two distinct
neighbor slots with different translation vectors (the duplicate-slot
situation the neighbor builder produces in small cells). -/
def chain2 : PLattice where
  nsites := 2
  nbrs := [[1, 1], [0, 0]]
  tvecs := [[V3.zero, ⟨-1, 0, 0⟩], [V3.zero, ⟨1, 0, 0⟩]]
  coo := [⟨0, 0, 0⟩, ⟨mkRat 1 2, 0, 0⟩]

/-- Two disjoint adjacent pairs (0↔1 and 2↔3), no wrap-around. -/
def pairs4 : PLattice where
  nsites := 4
  nbrs := [[1], [0], [3], [2]]
  tvecs := [[V3.zero], [V3.zero], [V3.zero], [V3.zero]]
  coo := [⟨0, 0, 0⟩, ⟨mkRat 1 8, 0, 0⟩, ⟨mkRat 1 2, 0, 0⟩, ⟨mkRat 5 8, 0, 0⟩]

/-- One adjacent pair of sites with no common neighbors. -/
def pair2 : PLattice where
  nsites := 2
  nbrs := [[1], [0]]
  tvecs := [[V3.zero], [V3.zero]]
  coo := [⟨0, 0, 0⟩, ⟨mkRat 1 2, 0, 0⟩]

/-- Occupation sequence 0, 1, 2, 3 on the 4-chain (each step picks the
first vacant site through the random branch). -/
def run4s0 : PState := resetState chain4 false 0

def run4s1 : PState := add_percolating_site chain4 run4s0 none 0

def run4s2 : PState := add_percolating_site chain4 run4s1 none 0

def run4s3 : PState := add_percolating_site chain4 run4s2 none 0

def run4s4 : PState := add_percolating_site chain4 run4s3 none 0

/-- Occupation sequence 0, 1 on the duplicate-slot 2-chain. -/
def run2s0 : PState := resetState chain2 false 0

def run2s1 : PState := add_percolating_site chain2 run2s0 none 0

def run2s2 : PState := add_percolating_site chain2 run2s1 none 0

/-- Occupation sequence 0, 2, 3, 1 on the two disjoint pairs: ends with
two live clusters of size 2 each, the one with the higher id having
reached size 2 first. -/
def runPs0 : PState := resetState pairs4 false 0

def runPs1 : PState := add_percolating_site pairs4 runPs0 none 0

def runPs2 : PState := add_percolating_site pairs4 runPs1 (some 2) 0

def runPs3 : PState := add_percolating_site pairs4 runPs2 (some 3) 0

def runPs4 : PState := add_percolating_site pairs4 runPs3 (some 1) 0

/-- Characterization of a finished intrusive-list walk: `ChainAt nx i l`
says that starting at `i` and following `nx` while nonnegative visits
exactly the sites of `l` (in order), ending at a site with negative
`nx`. -/
inductive ChainAt (nx : ℕ → ℤ) : ℕ → List ℕ → Prop
  | stop (i : ℕ) : nx i < 0 → ChainAt nx i [i]
  | step (i : ℕ) (l : List ℕ) : 0 ≤ nx i → ChainAt nx (nx i).toNat l →
      ChainAt nx i (i :: l)

/-- The inductive invariant of the engine, established after `reset` and
preserved by every `add_percolating_site` (section 8 of the spec). -/
structure PInv (L : PLattice) (s : PState) : Prop where
  cluster_out : ∀ i, L.nsites ≤ i → s.cluster i = -1
  vacant_lt : ∀ i ∈ s.vacant, i < L.nsites
  vacant_nodup : s.vacant.Nodup
  occ_iff : ∀ i, i < L.nsites → (0 ≤ s.cluster i ↔ i ∉ s.vacant)
  next_vacant : ∀ i, s.cluster i < 0 → s.next i = -1
  cl_live : ∀ i, 0 ≤ s.cluster i →
      (s.cluster i).toNat < s.nclus ∧ 0 < s.size (s.cluster i).toNat
  first_nonneg : ∀ c, c < s.nclus → 0 < s.size c → 0 ≤ s.first c
  chain : ∀ c, c < s.nclus → 0 < s.size c → ChainAt s.next (s.first c).toNat (memOf L s c)
  mem_nodup : ∀ c, c < s.nclus → 0 < s.size c → (memOf L s c).Nodup
  mem_len : ∀ c, c < s.nclus → 0 < s.size c → (memOf L s c).length = s.size c
  mem_cl : ∀ c, c < s.nclus → 0 < s.size c →
      ∀ x ∈ memOf L s c, x < L.nsites ∧ s.cluster x = (c : ℤ)
  cover : ∀ i, i < L.nsites → 0 ≤ s.cluster i → i ∈ memOf L s ((s.cluster i).toNat)
  larg_neg : s.largest < 0 → ∀ c, c < s.nclus → s.size c = 0
  larg : 0 ≤ s.largest → s.largest.toNat < s.nclus ∧ 0 < s.size s.largest.toNat ∧
      ∀ c, c < s.nclus → s.size c ≤ s.size s.largest.toNat
  nperc : s.npercolating = percSum s
  bond_sym : ∀ i, i < L.nsites → ∀ j ∈ nbrsOf L i, bondAt L s i j = bondAt L s j i
  bonds_count : 2 * s.nbonds = totalTrue L s
  attr : s.percAttr = none

instance (L : PLattice) : Decidable (LatticeWF L) := by
  unfold LatticeWF
  infer_instance

/-- Minimum of two rationals, written so that it evaluates
(`min(d_min, d_min_min)` in the source). -/
def qmin (a b : ℚ) : ℚ := if a ≤ b then a else b

/-- Minimum of a list of rationals (`np.min`, empty list not used). -/
def listMin : List ℚ → ℚ
  | [] => 0
  | a :: l => l.foldl qmin a

/-- One candidate site of a nearest-neighbor query: its id and the list
of its scanned periodic images, each with (Cartesian distance,
translation vector).  Distances stand for the nonnegative values
`sqrt(d2)` the source computes. -/
structure NbCand where
  j : ℕ
  imgs : List (ℚ × V3)
  deriving DecidableEq

/-- Images of candidate `c` collected under the current threshold:
`idx = (d2 <= (d_min_min+dr)**2)` — on nonnegative distances this is
`d ≤ d_min_min + dr`. -/
def nn_collect (dr cur : ℚ) (c : NbCand) : List (ℕ × ℚ × V3) :=
  (c.imgs.filter (fun p => decide (p.1 ≤ qadd cur dr))).map (fun p => (c.j, p))

/-- The filtering loop of `get_nearest_neighbors` (pynblist.py lines
246-266): scan candidates keeping a running minimum `cur`; a candidate
much closer than everything so far clears the accumulator; a candidate
beyond the running threshold is skipped; otherwise its images within
`cur + dr` are appended.  Returns the accumulated `(j, dist, T)` list
together with the final running minimum. -/
def get_nearest_neighbors_scan (dr : ℚ) :
    List NbCand → ℚ → List (ℕ × ℚ × V3) → List (ℕ × ℚ × V3) × ℚ
  | [], cur, acc => (acc, cur)
  | c :: rest, cur, acc =>
    let dmin := listMin (c.imgs.map Prod.fst)
    let acc1 := if qadd dmin dr < cur then [] else acc
    let cur1 := qmin dmin cur
    if qadd cur1 dr < dmin then get_nearest_neighbors_scan dr rest cur1 acc1
    else get_nearest_neighbors_scan dr rest cur1 (acc1 ++ nn_collect dr cur1 c)

/-- `binom.pmf(n, N, p)`, exactly: `C(N,n) pⁿ (1-p)^(N-n)`. -/
def binom_pmf (N n : ℕ) (p : ℚ) : ℚ :=
  (N.choose n : ℚ) * p ^ n * (1 - p) ^ (N - n)

/-- The binomial convolution of `calc_p_infinity` (lines 445-449):
`Pp(p) = Σ_{n=1..N} Binom(n; N, p) · Pn[n-1]` — note the sum starts at
`n = 1` (`nlist = np.arange(1, nsites+1)`). -/
def calc_p_infinity_conv (N : ℕ) (Pn : ℕ → ℚ) (p : ℚ) : ℚ :=
  ∑ n ∈ Finset.range N, binom_pmf N (n + 1) p * Pn n

/-- Status of one trial of `percolation_point`: still adding sites, or
stopped by the all-three-directions wrapping `break`, or stopped by the
"rule never percolates" error exit. -/
inductive TrialRes where
  | running (s : PState)
  | wrapped (s : PState)
  | failed (s : PState)

/-- One iteration of the `for n in xrange(self._nsites)` loop of
`percolation_point` (lines 684-716), keeping only the control flow and
the engine state: add a random site; if the largest cluster wraps along
all three directions, `break`; if instead this was the last site, exit
with the "rule never percolates" error (the `pc_*` accumulators and
file dumps do not influence control). -/
def trial_step (L : PLattice) (sels : List ℕ) (r : TrialRes) (n : ℕ) : TrialRes :=
  match r with
  | .wrapped s => .wrapped s
  | .failed s => .failed s
  | .running s =>
    let s2 := add_percolating_site L s none (sels.getD n 0)
    let w := s2.wrap s2.largest.toNat
    if 0 < w.1 ∧ 0 < w.2.1 ∧ 0 < w.2.2 then .wrapped s2
    else if n = L.nsites - 1 then .failed s2
    else .running s2

/-- One trial of `percolation_point`: reset, then the site loop. -/
def percolation_point_trial (L : PLattice) (sp : Bool) (k : ℕ) (sels : List ℕ) : TrialRes :=
  (List.range L.nsites).foldl (trial_step L sels) (.running (resetState L sp k))

/-- Hand-assembled state on the lattice `pair2` holding two occupied
singleton clusters {0} and {1} that are adjacent but not yet merged. -/
def twoSingles : PState where
  cluster := fun i => if i = 0 then 0 else if i = 1 then 1 else -1
  nclusters := 2
  nbonds := 0
  npercolating := 0
  nclusPercol := 0
  npaths := 0
  nclus := 2
  first := fun i => if i = 0 then 0 else if i = 1 then 1 else -1
  size := fun i => if i < 2 then 1 else 0
  wrap := fun _ => (0, 0, 0)
  largest := 0
  next := fun _ => -1
  vec := fun _ => V3.zero
  occupied := [0, 1]
  vacant := []
  bonds := fun _ _ => false
  special := false
  numCommon := 0
  percAttr := none

/-- Three single-image candidates whose distances 1, 19/20, 17/20 arrive
in decreasing order, each within `dr = 1/10` of the running minimum: no
reset is ever triggered, so the first pair survives the scan although
its distance exceeds the final minimum plus `dr`. -/
def cands6 : List NbCand :=
  [⟨7, [(1, V3.zero)]⟩, ⟨8, [(mkRat 19 20, V3.zero)]⟩, ⟨9, [(mkRat 17 20, V3.zero)]⟩]

/-! Basic lemmas: point updates, rational-arithmetic bridges, vacant-pool
bookkeeping. -/

theorem updN_same {α : Type} (f : ℕ → α) (a : ℕ) (v : α) : updN f a v a = v := by
  simp [updN]

theorem updN_ne {α : Type} (f : ℕ → α) (a : ℕ) (v : α) {x : ℕ} (h : x ≠ a) :
    updN f a v x = f x := by
  simp [updN, h]

theorem qadd_eq (a b : ℚ) : qadd a b = a + b := (Rat.add_def' a b).symm

theorem qsub_eq (a b : ℚ) : qsub a b = a - b := (Rat.sub_def' a b).symm

theorem qneg_eq (a : ℚ) : qneg a = -a := by
  rw [qneg, ← Rat.neg_mkRat, Rat.mkRat_self]

theorem qhalf_eq : qhalf = 1 / 2 := by
  rw [qhalf, Rat.mkRat_eq_div]
  norm_num

theorem qmin_eq (a b : ℚ) : qmin a b = min a b := by
  rw [qmin, min_def]

theorem qabs_eq (q : ℚ) : qabs q = |q| := by
  rw [qabs]
  split
  · rw [qneg_eq, abs_of_neg (by assumption)]
  · rw [abs_of_nonneg (le_of_not_lt (by assumption))]

theorem v3_add_x (a b : V3) : (a + b).x = a.x + b.x := qadd_eq a.x b.x

theorem v3_add_y (a b : V3) : (a + b).y = a.y + b.y := qadd_eq a.y b.y

theorem v3_add_z (a b : V3) : (a + b).z = a.z + b.z := qadd_eq a.z b.z

theorem v3_sub_x (a b : V3) : (a - b).x = a.x - b.x := qsub_eq a.x b.x

theorem v3_sub_y (a b : V3) : (a - b).y = a.y - b.y := qsub_eq a.y b.y

theorem v3_sub_z (a b : V3) : (a - b).z = a.z - b.z := qsub_eq a.z b.z

theorem getD_mem_of_lt {l : List ℕ} {k : ℕ} (hk : k < l.length) : l.getD k 0 ∈ l := by
  induction l generalizing k with
  | nil => simp at hk
  | cons a l ih =>
    cases k with
    | zero => simp
    | succ k =>
      have hk2 : k < l.length := by simpa using hk
      simpa using Or.inr (ih hk2)

theorem mem_eraseIdx_nodup {l : List ℕ} {k : ℕ} (hn : l.Nodup) (hk : k < l.length)
    (x : ℕ) : x ∈ l.eraseIdx k ↔ x ∈ l ∧ x ≠ l.getD k 0 := by
  induction l generalizing k with
  | nil => simp at hk
  | cons a l ih =>
    cases k with
    | zero =>
      simp only [List.eraseIdx, List.getD_cons_zero, List.mem_cons]
      constructor
      · intro hx
        exact ⟨Or.inr hx, fun e => (List.nodup_cons.mp hn).1 (e ▸ hx)⟩
      · rintro ⟨hx | hx, hne⟩
        · exact absurd hx hne
        · exact hx
    | succ k =>
      have hk2 : k < l.length := by simpa using hk
      have hn2 : l.Nodup := (List.nodup_cons.mp hn).2
      have hmem : l.getD k 0 ∈ l := getD_mem_of_lt hk2
      simp only [List.eraseIdx, List.getD_cons_succ, List.mem_cons, ih hn2 hk2]
      constructor
      · rintro (rfl | ⟨hx, hne⟩)
        · exact ⟨Or.inl rfl, fun e => (List.nodup_cons.mp hn).1 (e ▸ hmem)⟩
        · exact ⟨Or.inr hx, hne⟩
      · rintro ⟨rfl | hx, hne⟩
        · exact Or.inl rfl
        · exact Or.inr ⟨hx, hne⟩

theorem eraseIdx_nodup {l : List ℕ} (hn : l.Nodup) (k : ℕ) : (l.eraseIdx k).Nodup :=
  (List.eraseIdx_sublist l k).nodup hn

theorem nodup_bounded {l : List ℕ} {n : ℕ} (hn : l.Nodup) (hb : ∀ x ∈ l, x < n) :
    l.length ≤ n := by
  classical
  have hsub : l.toFinset ⊆ Finset.range n := by
    intro x hx
    simpa using hb x (List.mem_toFinset.mp hx)
  have := Finset.card_le_card hsub
  simpa [List.toFinset_card_of_nodup hn] using this

/-! Semantics of the special-rule loop. -/

theorem special_loop_iff (cluster : ℕ → ℤ) (k : ℕ) (l : List ℕ) (acc : ℕ) :
    special_loop cluster k l acc = true ↔
      l ≠ [] ∧ k ≤ acc + (l.filter (fun n => decide (0 ≤ cluster n))).length := by
  induction l generalizing acc with
  | nil => simp [special_loop]
  | cons nb rest ih =>
    have hflen : ((nb :: rest).filter (fun n => decide (0 ≤ cluster n))).length =
        ((if (0:ℤ) ≤ cluster nb then 1 else 0) +
          (rest.filter (fun n => decide (0 ≤ cluster n))).length) := by
      by_cases hocc : (0:ℤ) ≤ cluster nb <;> simp [List.filter_cons, hocc] <;> omega
    simp only [special_loop]
    by_cases hocc : (0:ℤ) ≤ cluster nb
    · simp only [hocc, if_true, ite_true, if_pos] at hflen ⊢
      by_cases hk : k ≤ acc + 1
      · simp only [hk, if_pos, ite_true]
        simp only [true_iff]
        exact ⟨by simp, by omega⟩
      · simp only [hk, if_neg, ite_false, ih]
        constructor
        · rintro ⟨hne, h⟩
          exact ⟨by simp, by omega⟩
        · rintro ⟨-, h⟩
          rcases rest with _ | ⟨r, rs⟩
          · exact absurd h (by simp [hocc] at hflen ⊢; omega)
          · exact ⟨by simp, by omega⟩
    · simp only [hocc, if_false, ite_false] at hflen ⊢
      by_cases hk : k ≤ acc
      · simp only [hk, if_pos, ite_true]
        simp only [true_iff]
        exact ⟨by simp, by omega⟩
      · simp only [hk, if_neg, ite_false, ih]
        constructor
        · rintro ⟨hne, h⟩
          exact ⟨by simp, by omega⟩
        · rintro ⟨-, h⟩
          rcases rest with _ | ⟨r, rs⟩
          · exact absurd h (by simp [hocc] at hflen ⊢; omega)
          · exact ⟨by simp, by omega⟩

/-! Lemmas about intrusive-list walks. -/

theorem chainAt_ne_nil {nx : ℕ → ℤ} {i : ℕ} {l : List ℕ} (h : ChainAt nx i l) :
    l ≠ [] := by
  cases h <;> simp

theorem chainAt_head {nx : ℕ → ℤ} {i : ℕ} {l : List ℕ} (h : ChainAt nx i l) :
    ∃ t, l = i :: t := by
  cases h with
  | stop _ _ => exact ⟨[], rfl⟩
  | step _ l _ _ => exact ⟨l, rfl⟩

theorem chainAt_mem_self {nx : ℕ → ℤ} {i : ℕ} {l : List ℕ} (h : ChainAt nx i l) :
    i ∈ l := by
  obtain ⟨t, rfl⟩ := chainAt_head h
  simp

theorem lastOf_cons {l : List ℕ} (a : ℕ) (h : l ≠ []) :
    (a :: l).getLastD 0 = l.getLastD 0 := by
  rcases l with _ | ⟨b, l⟩
  · exact absurd rfl h
  · simp [List.getLastD_cons]

theorem lastOf_mem {l : List ℕ} (h : l ≠ []) : l.getLastD 0 ∈ l := by
  induction l with
  | nil => exact absurd rfl h
  | cons a l ih =>
    rcases l with _ | ⟨b, l⟩
    · simp
    · rw [lastOf_cons a (by simp)]
      exact List.mem_cons_of_mem a (ih (by simp))

theorem chainAt_walk {nx : ℕ → ℤ} {i : ℕ} {l : List ℕ} (h : ChainAt nx i l) :
    ∀ fuel, l.length ≤ fuel + 1 → chainWalk nx fuel i = l := by
  induction h with
  | stop i hneg =>
    intro fuel _
    cases fuel with
    | zero => rfl
    | succ f => simp [chainWalk, not_le.mpr hneg]
  | step i l hpos hl ih =>
    intro fuel hlen
    have h1 : 1 ≤ l.length := List.length_pos.mpr (chainAt_ne_nil hl)
    cases fuel with
    | zero =>
      exfalso
      have h2 : l.length + 1 ≤ 1 := by simpa using hlen
      omega
    | succ f =>
      have : l.length ≤ f + 1 := by
        have h2 : l.length + 1 ≤ f + 1 + 1 := by simpa using hlen
        omega
      simp [chainWalk, hpos, ih f this]

theorem chainAt_congr {nx nx2 : ℕ → ℤ} {i : ℕ} {l : List ℕ}
    (hagree : ∀ x ∈ l, nx2 x = nx x) (h : ChainAt nx i l) : ChainAt nx2 i l := by
  induction h with
  | stop i hneg =>
    exact ChainAt.stop i (by rw [hagree i (by simp)]; exact hneg)
  | step i l hpos hl ih =>
    have he : nx2 i = nx i := hagree i (by simp)
    refine ChainAt.step i l (by rw [he]; exact hpos) ?_
    rw [he]
    exact ih (fun x hx => hagree x (List.mem_cons_of_mem i hx))

theorem chainAt_redirect_neg {nx nx2 : ℕ → ℤ} {j : ℕ} {l : List ℕ}
    (h : ChainAt nx j l) (hnd : l.Nodup)
    (hagree : ∀ x ∈ l, x ≠ l.getLastD 0 → nx2 x = nx x)
    (hlast : nx2 (l.getLastD 0) < 0) : ChainAt nx2 j l := by
  induction h with
  | stop i hneg =>
    exact ChainAt.stop i (by simpa using hlast)
  | step i l hpos hl ih =>
    have hlne : l ≠ [] := chainAt_ne_nil hl
    have hlast2 : (i :: l).getLastD 0 = l.getLastD 0 := lastOf_cons i hlne
    have hi_ne : i ≠ l.getLastD 0 := by
      intro e
      exact (List.nodup_cons.mp hnd).1 (e ▸ lastOf_mem hlne)
    have he : nx2 i = nx i := hagree i (by simp) (by rw [hlast2]; exact hi_ne)
    refine ChainAt.step i l (by rw [he]; exact hpos) ?_
    rw [he]
    refine ih (List.nodup_cons.mp hnd).2 ?_ (by rw [← hlast2]; exact hlast)
    intro x hx hxne
    exact hagree x (List.mem_cons_of_mem i hx) (by rw [hlast2]; exact hxne)

theorem chainAt_redirect_pos {nx nx2 : ℕ → ℤ} {j : ℕ} {l m : List ℕ}
    (h : ChainAt nx j l) (hnd : l.Nodup)
    (hagree : ∀ x ∈ l, x ≠ l.getLastD 0 → nx2 x = nx x)
    (hv : 0 ≤ nx2 (l.getLastD 0))
    (hm : ChainAt nx2 (nx2 (l.getLastD 0)).toNat m) : ChainAt nx2 j (l ++ m) := by
  induction h with
  | stop i hneg =>
    exact ChainAt.step i m (by simpa using hv) (by simpa using hm)
  | step i l hpos hl ih =>
    have hlne : l ≠ [] := chainAt_ne_nil hl
    have hlast2 : (i :: l).getLastD 0 = l.getLastD 0 := lastOf_cons i hlne
    have hi_ne : i ≠ l.getLastD 0 := by
      intro e
      exact (List.nodup_cons.mp hnd).1 (e ▸ lastOf_mem hlne)
    have he : nx2 i = nx i := hagree i (by simp) (by rw [hlast2]; exact hi_ne)
    refine ChainAt.step i (l ++ m) (by rw [he]; exact hpos) ?_
    rw [he]
    refine ih (List.nodup_cons.mp hnd).2 ?_ (by rw [← hlast2]; exact hv)
      (by rw [← hlast2]; exact hm)
    intro x hx hxne
    exact hagree x (List.mem_cons_of_mem i hx) (by rw [hlast2]; exact hxne)

/-! Characterizations of the merge sub-steps. -/

theorem walk_relabel_unch (c1 : ℕ) (dv : V3) (mem : List ℕ) (s : PState) :
    (walk_relabel c1 dv mem s).nbonds = s.nbonds ∧
    (walk_relabel c1 dv mem s).bonds = s.bonds ∧
    (walk_relabel c1 dv mem s).npercolating = s.npercolating ∧
    (walk_relabel c1 dv mem s).nclusPercol = s.nclusPercol ∧
    (walk_relabel c1 dv mem s).npaths = s.npaths ∧
    (walk_relabel c1 dv mem s).nclus = s.nclus ∧
    (walk_relabel c1 dv mem s).nclusters = s.nclusters ∧
    (walk_relabel c1 dv mem s).first = s.first ∧
    (walk_relabel c1 dv mem s).size = s.size ∧
    (walk_relabel c1 dv mem s).wrap = s.wrap ∧
    (walk_relabel c1 dv mem s).largest = s.largest ∧
    (walk_relabel c1 dv mem s).next = s.next ∧
    (walk_relabel c1 dv mem s).vacant = s.vacant ∧
    (walk_relabel c1 dv mem s).occupied = s.occupied ∧
    (walk_relabel c1 dv mem s).special = s.special ∧
    (walk_relabel c1 dv mem s).numCommon = s.numCommon ∧
    (walk_relabel c1 dv mem s).percAttr = s.percAttr := by
  induction mem generalizing s with
  | nil => exact ⟨rfl, rfl, rfl, rfl, rfl, rfl, rfl, rfl, rfl, rfl, rfl, rfl, rfl,
      rfl, rfl, rfl, rfl⟩
  | cons a mem ih => exact ih _

theorem walk_relabel_cluster (c1 : ℕ) (dv : V3) (mem : List ℕ) (s : PState) (x : ℕ) :
    (walk_relabel c1 dv mem s).cluster x =
      if x ∈ mem then (c1 : ℤ) else s.cluster x := by
  induction mem generalizing s with
  | nil => simp [walk_relabel]
  | cons a mem ih =>
    show (walk_relabel c1 dv mem _).cluster x = _
    rw [ih]
    by_cases hx : x ∈ mem
    · simp [hx]
    · by_cases hxa : x = a
      · subst hxa
        simp [hx, updN_same]
      · simp [hx, hxa, updN_ne _ _ _ hxa]

theorem walk_relabel_vec_notmem (c1 : ℕ) (dv : V3) (mem : List ℕ) (s : PState)
    (x : ℕ) (hx : x ∉ mem) : (walk_relabel c1 dv mem s).vec x = s.vec x := by
  induction mem generalizing s with
  | nil => rfl
  | cons a mem ih =>
    have hxa : x ≠ a := fun e => hx (e ▸ List.mem_cons_self a mem)
    have hx2 : x ∉ mem := fun h => hx (List.mem_cons_of_mem a h)
    show (walk_relabel c1 dv mem _).vec x = _
    rw [ih _ hx2]
    exact updN_ne _ _ _ hxa

theorem walk_relabel_vec_once (c1 : ℕ) (dv : V3) (mem : List ℕ) (s : PState)
    (x : ℕ) (hx : mem.count x = 1) :
    (walk_relabel c1 dv mem s).vec x = s.vec x + dv := by
  induction mem generalizing s with
  | nil => simp at hx
  | cons a mem ih =>
    show (walk_relabel c1 dv mem _).vec x = _
    by_cases hxa : x = a
    · subst hxa
      have hx2 : x ∉ mem := by
        simp [List.count_cons] at hx
        exact List.count_eq_zero.mp (by omega)
      rw [walk_relabel_vec_notmem _ _ _ _ _ hx2]
      simp [updN_same]
    · have hx2 : mem.count x = 1 := by
        simpa [List.count_cons, hxa] using hx
      rw [ih _ hx2]
      simp [updN_ne _ _ _ hxa]

theorem bond_step_of_true {L : PLattice} {s : PState} {s1 s2 : ℕ}
    (h : s.bonds s1 ((nbrsOf L s1).indexOf s2) = true) : bond_step L s s1 s2 = s := by
  unfold bond_step
  simp [h]

theorem bond_step_of_false {L : PLattice} {s : PState} {s1 s2 : ℕ}
    (h : s.bonds s1 ((nbrsOf L s1).indexOf s2) = false) :
    bond_step L s s1 s2 =
      { s with bonds := setBond (setBond s.bonds s1 ((nbrsOf L s1).indexOf s2))
                          s2 ((nbrsOf L s2).indexOf s1),
               nbonds := s.nbonds + 1 } := by
  unfold bond_step
  simp [h]

theorem perc_account_unch (s : PState) (c1 c2 : ℕ) :
    (perc_account s c1 c2).cluster = s.cluster ∧
    (perc_account s c1 c2).next = s.next ∧
    (perc_account s c1 c2).first = s.first ∧
    (perc_account s c1 c2).size = s.size ∧
    (perc_account s c1 c2).wrap = s.wrap ∧
    (perc_account s c1 c2).largest = s.largest ∧
    (perc_account s c1 c2).vacant = s.vacant ∧
    (perc_account s c1 c2).occupied = s.occupied ∧
    (perc_account s c1 c2).bonds = s.bonds ∧
    (perc_account s c1 c2).nbonds = s.nbonds ∧
    (perc_account s c1 c2).nclus = s.nclus ∧
    (perc_account s c1 c2).vec = s.vec ∧
    (perc_account s c1 c2).special = s.special ∧
    (perc_account s c1 c2).numCommon = s.numCommon ∧
    (perc_account s c1 c2).percAttr = s.percAttr ∧
    (perc_account s c1 c2).npaths = s.npaths := by
  simp only [perc_account]
  repeat' split
  all_goals exact ⟨rfl, rfl, rfl, rfl, rfl, rfl, rfl, rfl, rfl, rfl, rfl, rfl, rfl,
      rfl, rfl, rfl⟩

theorem perc_account_nperc (s : PState) (c1 c2 : ℕ) :
    (perc_account s c1 c2).npercolating = s.npercolating +
      (if 0 < wrapTot (s.wrap c1) ∧ wrapTot (s.wrap c2) = 0 then s.size c2
       else if wrapTot (s.wrap c1) = 0 ∧ 0 < wrapTot (s.wrap c2) then s.size c1
       else 0) := by
  simp only [perc_account]
  repeat' split
  all_goals simp_all

theorem retire_step_unch (s : PState) (c2 : ℕ) :
    (retire_step s c2).cluster = s.cluster ∧
    (retire_step s c2).next = s.next ∧
    (retire_step s c2).vec = s.vec ∧
    (retire_step s c2).largest = s.largest ∧
    (retire_step s c2).vacant = s.vacant ∧
    (retire_step s c2).occupied = s.occupied ∧
    (retire_step s c2).bonds = s.bonds ∧
    (retire_step s c2).nbonds = s.nbonds ∧
    (retire_step s c2).npercolating = s.npercolating ∧
    (retire_step s c2).nclusPercol = s.nclusPercol ∧
    (retire_step s c2).npaths = s.npaths ∧
    (retire_step s c2).special = s.special ∧
    (retire_step s c2).numCommon = s.numCommon ∧
    (retire_step s c2).percAttr = s.percAttr := by
  unfold retire_step
  split
  all_goals exact ⟨rfl, rfl, rfl, rfl, rfl, rfl, rfl, rfl, rfl, rfl, rfl, rfl, rfl, rfl⟩

theorem retire_of_last {s : PState} {c2 : ℕ} (h : s.nclus = c2 + 1) :
    retire_step s c2 = { s with nclus := c2 } := by
  unfold retire_step
  simp [h]

theorem retire_of_not_last {s : PState} {c2 : ℕ} (h : s.nclus ≠ c2 + 1) :
    retire_step s c2 =
      { s with first := updN s.first c2 (-1),
               size := updN s.size c2 0,
               wrap := updN s.wrap c2 (0, 0, 0) } := by
  unfold retire_step
  simp [h]

theorem same_step_unch (s : PState) (c1 : ℕ) (dv : V3) :
    (same_step s c1 dv).cluster = s.cluster ∧
    (same_step s c1 dv).next = s.next ∧
    (same_step s c1 dv).first = s.first ∧
    (same_step s c1 dv).size = s.size ∧
    (same_step s c1 dv).largest = s.largest ∧
    (same_step s c1 dv).vacant = s.vacant ∧
    (same_step s c1 dv).occupied = s.occupied ∧
    (same_step s c1 dv).bonds = s.bonds ∧
    (same_step s c1 dv).nbonds = s.nbonds ∧
    (same_step s c1 dv).nclus = s.nclus ∧
    (same_step s c1 dv).vec = s.vec ∧
    (same_step s c1 dv).nclusters = s.nclusters ∧
    (same_step s c1 dv).special = s.special ∧
    (same_step s c1 dv).numCommon = s.numCommon ∧
    (same_step s c1 dv).percAttr = s.percAttr := by
  simp only [same_step]
  repeat' split
  all_goals exact ⟨rfl, rfl, rfl, rfl, rfl, rfl, rfl, rfl, rfl, rfl, rfl, rfl, rfl,
      rfl, rfl⟩

theorem same_step_wrap_ne (s : PState) (c1 : ℕ) (dv : V3) {c : ℕ} (h : c ≠ c1) :
    (same_step s c1 dv).wrap c = s.wrap c := by
  simp only [same_step]
  repeat' split
  all_goals simp [updN, h]

theorem same_step_wrapTot_le (s : PState) (c1 : ℕ) (dv : V3) :
    wrapTot (s.wrap c1) ≤ wrapTot ((same_step s c1 dv).wrap c1) := by
  simp only [same_step]
  repeat' split
  all_goals simp [updN_same, wrapTot, bumpX, bumpY, bumpZ]
  all_goals omega

theorem same_step_nperc (s : PState) (c1 : ℕ) (dv : V3) :
    (same_step s c1 dv).npercolating = s.npercolating +
      (if wrapTot (s.wrap c1) = 0 ∧ 0 < wrapTot ((same_step s c1 dv).wrap c1)
       then s.size c1 else 0) := by
  simp only [same_step]
  repeat' split
  all_goals simp_all [updN_same]

theorem sum_congr_except_one (F G : ℕ → ℕ) (n a : ℕ) (ha : a < n)
    (hFG : ∀ c, c < n → c ≠ a → G c = F c) :
    (∑ c ∈ Finset.range n, G c) + F a = (∑ c ∈ Finset.range n, F c) + G a := by
  have hmem : a ∈ Finset.range n := Finset.mem_range.mpr ha
  have hG := Finset.add_sum_erase (Finset.range n) G hmem
  have hF := Finset.add_sum_erase (Finset.range n) F hmem
  have hcongr : ∑ c ∈ (Finset.range n).erase a, G c =
      ∑ c ∈ (Finset.range n).erase a, F c := by
    refine Finset.sum_congr rfl ?_
    intro c hc
    have := Finset.mem_erase.mp hc
    exact hFG c (Finset.mem_range.mp this.2) this.1
  omega

theorem sum_congr_except_two (F G : ℕ → ℕ) (n a b : ℕ) (ha : a < n) (hb : b < n)
    (hab : a ≠ b) (hFG : ∀ c, c < n → c ≠ a → c ≠ b → G c = F c) :
    (∑ c ∈ Finset.range n, G c) + F a + F b =
      (∑ c ∈ Finset.range n, F c) + G a + G b := by
  have hmema : a ∈ Finset.range n := Finset.mem_range.mpr ha
  have hmemb : b ∈ (Finset.range n).erase a := by
    exact Finset.mem_erase.mpr ⟨fun e => hab e.symm, Finset.mem_range.mpr hb⟩
  have hGa := Finset.add_sum_erase (Finset.range n) G hmema
  have hFa := Finset.add_sum_erase (Finset.range n) F hmema
  have hGb := Finset.add_sum_erase ((Finset.range n).erase a) G hmemb
  have hFb := Finset.add_sum_erase ((Finset.range n).erase a) F hmemb
  have hcongr : ∑ c ∈ ((Finset.range n).erase a).erase b, G c =
      ∑ c ∈ ((Finset.range n).erase a).erase b, F c := by
    refine Finset.sum_congr rfl ?_
    intro c hc
    have h1 := Finset.mem_erase.mp hc
    have h2 := Finset.mem_erase.mp h1.2
    exact hFG c (Finset.mem_range.mp h2.2) h2.1 h1.1
  omega

theorem bond_step_unch (L : PLattice) (s : PState) (s1 s2 : ℕ) :
    (bond_step L s s1 s2).cluster = s.cluster ∧
    (bond_step L s s1 s2).next = s.next ∧
    (bond_step L s s1 s2).first = s.first ∧
    (bond_step L s s1 s2).size = s.size ∧
    (bond_step L s s1 s2).wrap = s.wrap ∧
    (bond_step L s s1 s2).largest = s.largest ∧
    (bond_step L s s1 s2).vacant = s.vacant ∧
    (bond_step L s s1 s2).occupied = s.occupied ∧
    (bond_step L s s1 s2).vec = s.vec ∧
    (bond_step L s s1 s2).nclus = s.nclus ∧
    (bond_step L s s1 s2).npercolating = s.npercolating ∧
    (bond_step L s s1 s2).nclusPercol = s.nclusPercol ∧
    (bond_step L s s1 s2).npaths = s.npaths ∧
    (bond_step L s s1 s2).nclusters = s.nclusters ∧
    (bond_step L s s1 s2).special = s.special ∧
    (bond_step L s s1 s2).numCommon = s.numCommon ∧
    (bond_step L s s1 s2).percAttr = s.percAttr := by
  simp only [bond_step]
  split
  all_goals exact ⟨rfl, rfl, rfl, rfl, rfl, rfl, rfl, rfl, rfl, rfl, rfl, rfl, rfl,
      rfl, rfl, rfl, rfl⟩

/-- Congruence: the invariant only inspects the listed fields. -/
theorem pinv_congr {L : PLattice} {s t : PState} (inv : PInv L s)
    (hcl : t.cluster = s.cluster) (hnx : t.next = s.next) (hfi : t.first = s.first)
    (hsz : t.size = s.size) (hwr : t.wrap = s.wrap) (hlg : t.largest = s.largest)
    (hvc : t.vacant = s.vacant) (hnp : t.npercolating = s.npercolating)
    (hnc : t.nclus = s.nclus)
    (hsym : ∀ i, i < L.nsites → ∀ j ∈ nbrsOf L i, bondAt L t i j = bondAt L t j i)
    (hcnt : 2 * t.nbonds = totalTrue L t)
    (hpa : t.percAttr = s.percAttr) : PInv L t := by
  have hmem : ∀ c, memOf L t c = memOf L s c := by
    intro c
    unfold memOf
    rw [hnx, hfi]
  have hperc : percSum t = percSum s := by
    unfold percSum
    rw [hnc, Finset.sum_congr rfl]
    intro c _
    rw [hwr, hsz]
  exact {
    cluster_out := by rw [hcl]; exact inv.cluster_out
    vacant_lt := by rw [hvc]; exact inv.vacant_lt
    vacant_nodup := by rw [hvc]; exact inv.vacant_nodup
    occ_iff := by rw [hcl, hvc]; exact inv.occ_iff
    next_vacant := by rw [hcl, hnx]; exact inv.next_vacant
    cl_live := by rw [hcl, hnc, hsz]; exact inv.cl_live
    first_nonneg := by rw [hnc, hsz, hfi]; exact inv.first_nonneg
    chain := by
      intro c hc hsz2
      rw [hnx, hfi, hmem]
      exact inv.chain c (hnc ▸ hc) (hsz ▸ hsz2)
    mem_nodup := by
      intro c hc hsz2
      rw [hmem]
      exact inv.mem_nodup c (hnc ▸ hc) (hsz ▸ hsz2)
    mem_len := by
      intro c hc hsz2
      rw [hmem, hsz]
      exact inv.mem_len c (hnc ▸ hc) (hsz ▸ hsz2)
    mem_cl := by
      intro c hc hsz2
      rw [hmem, hcl]
      exact inv.mem_cl c (hnc ▸ hc) (hsz ▸ hsz2)
    cover := by
      intro i hi hcl2
      rw [hcl] at hcl2 ⊢
      rw [hmem]
      exact inv.cover i hi hcl2
    larg_neg := by rw [hlg, hnc, hsz]; exact inv.larg_neg
    larg := by rw [hlg, hnc, hsz]; exact inv.larg
    nperc := by rw [hnp, hperc]; exact inv.nperc
    bond_sym := hsym
    bonds_count := hcnt
    attr := by rw [hpa]; exact inv.attr }

theorem totalTrue_setBond {L : PLattice} {s t : PState} {a b : ℕ}
    (ha : a < L.nsites) (hb : b < dcount L a) (hf : s.bonds a b = false)
    (ht : t.bonds = setBond s.bonds a b) :
    totalTrue L t = totalTrue L s + 1 := by
  unfold totalTrue
  have houter := sum_congr_except_one
      (fun i => ∑ k ∈ Finset.range (dcount L i), (if s.bonds i k then 1 else 0))
      (fun i => ∑ k ∈ Finset.range (dcount L i), (if t.bonds i k then 1 else 0))
      L.nsites a ha (by
        intro c hc hca
        refine Finset.sum_congr rfl ?_
        intro k _
        rw [ht]
        simp [setBond, hca])
  have hinner := sum_congr_except_one
      (fun k => if s.bonds a k then 1 else 0)
      (fun k => if t.bonds a k then 1 else 0)
      (dcount L a) b hb (by
        intro k _ hkb
        rw [ht]
        simp [setBond, hkb])
  have hGb : t.bonds a b = true := by
    rw [ht]
    simp [setBond]
  simp only [] at hinner houter
  rw [hf, hGb] at hinner
  rw [show (if (false = true) then (1:ℕ) else 0) = 0 from rfl,
      show (if (true = true) then (1:ℕ) else 0) = 1 from rfl] at hinner
  omega

theorem bond_step_inv {L : PLattice} {s : PState} {s1 s2 : ℕ}
    (hw : LatticeWF L) (inv : PInv L s)
    (h1 : s1 < L.nsites) (h2 : s2 < L.nsites) (hadj : s2 ∈ nbrsOf L s1) :
    PInv L (bond_step L s s1 s2) := by
  obtain ⟨hrange, hnoself, hsymm, hidx⟩ := hw
  by_cases hb : s.bonds s1 ((nbrsOf L s1).indexOf s2) = true
  · rw [bond_step_of_true hb]
    exact inv
  · have hb0 : s.bonds s1 ((nbrsOf L s1).indexOf s2) = false := by
      revert hb
      cases s.bonds s1 ((nbrsOf L s1).indexOf s2) <;> simp
    rw [bond_step_of_false hb0]
    have hne : s1 ≠ s2 := by
      intro e
      exact hnoself s1 h1 (by rw [e] at hadj ⊢; exact hadj)
    have hadj2 : s1 ∈ nbrsOf L s2 := hsymm s1 h1 s2 hadj
    have hb0sym : s.bonds s2 ((nbrsOf L s2).indexOf s1) = false := by
      have hss := inv.bond_sym s1 h1 s2 hadj
      unfold bondAt at hss
      rw [← hss]
      exact hb0
    have hbt : ∀ i j, i < L.nsites → j ∈ nbrsOf L i →
        (setBond (setBond s.bonds s1 ((nbrsOf L s1).indexOf s2))
            s2 ((nbrsOf L s2).indexOf s1)) i ((nbrsOf L i).indexOf j) =
          if (i = s1 ∧ j = s2) ∨ (i = s2 ∧ j = s1) then true else bondAt L s i j := by
      intro i j hi hj
      unfold setBond bondAt
      by_cases e2 : i = s2
      · subst e2
        by_cases ej : j = s1
        · subst ej
          simp
        · have hne2 : (nbrsOf L i).indexOf j ≠ (nbrsOf L i).indexOf s1 := by
            intro e
            exact ej ((List.indexOf_inj hj hadj2).mp e)
          have hne1 : i ≠ s1 := fun e => hne e.symm
          simp [hne2, hne1, ej]
      · by_cases e1 : i = s1
        · subst e1
          by_cases ej : j = s2
          · subst ej
            simp [e2]
          · have hne2 : (nbrsOf L i).indexOf j ≠ (nbrsOf L i).indexOf s2 := by
              intro e
              exact ej ((List.indexOf_inj hj hadj).mp e)
            simp [hne2, e2, ej]
        · simp [e1, e2]
    refine pinv_congr inv rfl rfl rfl rfl rfl rfl rfl rfl rfl ?_ ?_ rfl
    · intro i hi j hj
      have hjlt : j < L.nsites := hrange i hi j hj
      have hji : i ∈ nbrsOf L j := hsymm i hi j hj
      show (setBond (setBond s.bonds s1 _) s2 _) i _ =
        (setBond (setBond s.bonds s1 _) s2 _) j _
      rw [hbt i j hi hj, hbt j i hjlt hji]
      by_cases hcond : (i = s1 ∧ j = s2) ∨ (i = s2 ∧ j = s1)
      · have hcond2 : (j = s1 ∧ i = s2) ∨ (j = s2 ∧ i = s1) := by tauto
        simp [hcond, hcond2]
      · have hcond2 : ¬ ((j = s1 ∧ i = s2) ∨ (j = s2 ∧ i = s1)) := by tauto
        simp [hcond, hcond2]
        exact inv.bond_sym i hi j hj
    · show 2 * (s.nbonds + 1) = totalTrue L _
      have hstep1 : totalTrue L { s with bonds := setBond s.bonds s1 ((nbrsOf L s1).indexOf s2) } =
          totalTrue L s + 1 :=
        totalTrue_setBond h1 (hidx s1 h1 s2 hadj) hb0 rfl
      have hmidfalse :
          (setBond s.bonds s1 ((nbrsOf L s1).indexOf s2)) s2 ((nbrsOf L s2).indexOf s1) = false := by
        have hne2 : s2 ≠ s1 := fun e => hne e.symm
        simp only [setBond, hne2, false_and, if_false, ite_false]
        exact hb0sym
      have hstep2 : totalTrue L { s with
            bonds := setBond (setBond s.bonds s1 ((nbrsOf L s1).indexOf s2))
              s2 ((nbrsOf L s2).indexOf s1),
            nbonds := s.nbonds + 1 } =
          totalTrue L { s with bonds := setBond s.bonds s1 ((nbrsOf L s1).indexOf s2) } + 1 :=
        totalTrue_setBond (s := { s with bonds := setBond s.bonds s1 ((nbrsOf L s1).indexOf s2) })
          h2 (hidx s2 h2 s1 hadj2) hmidfalse rfl
      have := inv.bonds_count
      omega

theorem merge_of_not_special {L : PLattice} {s : PState} {s1 s2 : ℕ} (c1 c2 : ℕ)
    (T2 : V3) (h : check_special L s s1 s2 = false) :
    merge_clusters L s c1 s1 c2 s2 T2 = s := by
  unfold merge_clusters
  simp [h]

theorem merge_of_same {L : PLattice} {s : PState} {c1 s1 c2 s2 : ℕ} {T2 : V3}
    (hcs : check_special L s s1 s2 = true) (hc : c1 = c2) :
    merge_clusters L s c1 s1 c2 s2 T2 =
      same_step (bond_step L s s1 s2) c1
        ((bond_step L s s1 s2).vec s1 - (cooAt L s2 + T2 - cooAt L s1) -
          (bond_step L s s1 s2).vec s2) := by
  unfold merge_clusters
  simp [hcs, hc]

theorem merge_of_diff {L : PLattice} {s : PState} {c1 s1 c2 s2 : ℕ} {T2 : V3}
    (hcs : check_special L s s1 s2 = true) (hc : c1 ≠ c2) :
    merge_clusters L s c1 s1 c2 s2 T2 =
      diff_step L (bond_step L s s1 s2) c1 c2
        ((bond_step L s s1 s2).vec s1 - (cooAt L s2 + T2 - cooAt L s1) -
          (bond_step L s s1 s2).vec s2) := by
  unfold merge_clusters
  simp [hcs, hc]

theorem same_step_inv {L : PLattice} {s : PState} {c1 : ℕ} (inv : PInv L s)
    (hc : c1 < s.nclus) (dv : V3) : PInv L (same_step s c1 dv) := by
  obtain ⟨hcl, hnx, hfi, hsz, hlg, hvc, hoc, hbd, hnb, hncl, hvec, hncls, hsp,
      hnc2, hpa⟩ := same_step_unch s c1 dv
  have hmem : ∀ c, memOf L (same_step s c1 dv) c = memOf L s c := by
    intro c
    unfold memOf
    rw [hnx, hfi]
  have hbondAt : ∀ i j, bondAt L (same_step s c1 dv) i j = bondAt L s i j := by
    intro i j
    unfold bondAt
    rw [hbd]
  have htt : totalTrue L (same_step s c1 dv) = totalTrue L s := by
    unfold totalTrue
    refine Finset.sum_congr rfl fun i _ => ?_
    refine Finset.sum_congr rfl fun k _ => ?_
    rw [hbd]
  refine {
    cluster_out := by rw [hcl]; exact inv.cluster_out
    vacant_lt := by rw [hvc]; exact inv.vacant_lt
    vacant_nodup := by rw [hvc]; exact inv.vacant_nodup
    occ_iff := by rw [hcl, hvc]; exact inv.occ_iff
    next_vacant := by rw [hcl, hnx]; exact inv.next_vacant
    cl_live := by rw [hcl, hncl, hsz]; exact inv.cl_live
    first_nonneg := by rw [hncl, hsz, hfi]; exact inv.first_nonneg
    chain := by
      intro c hc2 hsz2
      rw [hnx, hfi, hmem]
      exact inv.chain c (hncl ▸ hc2) (hsz ▸ hsz2)
    mem_nodup := by
      intro c hc2 hsz2
      rw [hmem]
      exact inv.mem_nodup c (hncl ▸ hc2) (hsz ▸ hsz2)
    mem_len := by
      intro c hc2 hsz2
      rw [hmem, hsz]
      exact inv.mem_len c (hncl ▸ hc2) (hsz ▸ hsz2)
    mem_cl := by
      intro c hc2 hsz2
      rw [hmem, hcl]
      exact inv.mem_cl c (hncl ▸ hc2) (hsz ▸ hsz2)
    cover := by
      intro i hi hcl2
      rw [hcl] at hcl2 ⊢
      rw [hmem]
      exact inv.cover i hi hcl2
    larg_neg := by rw [hlg, hncl, hsz]; exact inv.larg_neg
    larg := by rw [hlg, hncl, hsz]; exact inv.larg
    nperc := ?_
    bond_sym := by
      intro i hi j hj
      rw [hbondAt, hbondAt]
      exact inv.bond_sym i hi j hj
    bonds_count := by rw [hnb, htt]; exact inv.bonds_count
    attr := by rw [hpa]; exact inv.attr }
  have hsum := sum_congr_except_one
      (fun c => if 0 < wrapTot (s.wrap c) then s.size c else 0)
      (fun c => if 0 < wrapTot ((same_step s c1 dv).wrap c) then (same_step s c1 dv).size c else 0)
      s.nclus c1 hc (by
        intro c hcc hne
        simp only []
        rw [same_step_wrap_ne s c1 dv hne, hsz])
  have hmono := same_step_wrapTot_le s c1 dv
  have hnp := same_step_nperc s c1 dv
  have hold := inv.nperc
  unfold percSum at hold ⊢
  rw [hncl, hnp, hold, hsz]
  simp only [] at hsum
  rw [hsz] at hsum
  by_cases hB : 0 < wrapTot ((same_step s c1 dv).wrap c1)
  · by_cases hA : 0 < wrapTot (s.wrap c1)
    · rw [if_pos hA, if_pos hB] at hsum
      rw [if_neg (show ¬ (wrapTot (s.wrap c1) = 0 ∧
          0 < wrapTot ((same_step s c1 dv).wrap c1)) by omega)]
      omega
    · rw [if_neg hA, if_pos hB] at hsum
      rw [if_pos (show wrapTot (s.wrap c1) = 0 ∧
          0 < wrapTot ((same_step s c1 dv).wrap c1) from ⟨by omega, hB⟩)]
      omega
  · have hA : ¬ 0 < wrapTot (s.wrap c1) := by omega
    rw [if_neg hA, if_neg hB] at hsum
    rw [if_neg (show ¬ (wrapTot (s.wrap c1) = 0 ∧
        0 < wrapTot ((same_step s c1 dv).wrap c1)) by omega)]
    omega

theorem diff_step_unch (L : PLattice) (s : PState) (c1 c2 : ℕ) (dv : V3) :
    (diff_step L s c1 c2 dv).vacant = s.vacant ∧
    (diff_step L s c1 c2 dv).occupied = s.occupied ∧
    (diff_step L s c1 c2 dv).bonds = s.bonds ∧
    (diff_step L s c1 c2 dv).nbonds = s.nbonds ∧
    (diff_step L s c1 c2 dv).npaths = s.npaths ∧
    (diff_step L s c1 c2 dv).special = s.special ∧
    (diff_step L s c1 c2 dv).numCommon = s.numCommon ∧
    (diff_step L s c1 c2 dv).percAttr = s.percAttr := by
  unfold diff_step
  simp only []
  obtain ⟨pcl, pnx, pfi, psz, pwr, plg, pvc, poc, pbd, pnb, pnc, pvec, psp, pncm,
      ppa, ppth⟩ := perc_account_unch s c1 c2
  obtain ⟨wnb, wbd, wnp, wncp, wpth, wncl, wnclr, wfi, wsz, wwr, wlg, wnx, wvc,
      woc, wsp, wncm, wpa⟩ := walk_relabel_unch c1 dv
        (chainWalk (perc_account s c1 c2).next L.nsites
          ((perc_account s c1 c2).first c2).toNat) (perc_account s c1 c2)
  refine ⟨?_, ?_, ?_, ?_, ?_, ?_, ?_, ?_⟩
  · rw [(retire_step_unch _ c2).2.2.2.2.1]
    dsimp only
    rw [wvc, pvc]
  · rw [(retire_step_unch _ c2).2.2.2.2.2.1]
    dsimp only
    rw [woc, poc]
  · rw [(retire_step_unch _ c2).2.2.2.2.2.2.1]
    dsimp only
    rw [wbd, pbd]
  · rw [(retire_step_unch _ c2).2.2.2.2.2.2.2.1]
    dsimp only
    rw [wnb, pnb]
  · rw [(retire_step_unch _ c2).2.2.2.2.2.2.2.2.2.2.1]
    dsimp only
    rw [wpth, ppth]
  · rw [(retire_step_unch _ c2).2.2.2.2.2.2.2.2.2.2.2.1]
    dsimp only
    rw [wsp, psp]
  · rw [(retire_step_unch _ c2).2.2.2.2.2.2.2.2.2.2.2.2.1]
    dsimp only
    rw [wncm, pncm]
  · rw [(retire_step_unch _ c2).2.2.2.2.2.2.2.2.2.2.2.2.2]
    dsimp only
    rw [wpa, ppa]

theorem diff_step_cluster (L : PLattice) (s : PState) (c1 c2 : ℕ) (dv : V3) (x : ℕ) :
    (diff_step L s c1 c2 dv).cluster x =
      if x ∈ memOf L s c2 then (c1 : ℤ) else s.cluster x := by
  unfold diff_step
  simp only []
  obtain ⟨pcl, pnx, pfi, psz, pwr, plg, pvc, poc, pbd, pnb, pnc, pvec, psp, pncm,
      ppa, ppth⟩ := perc_account_unch s c1 c2
  rw [(retire_step_unch _ c2).1]
  dsimp only
  rw [pnx, pfi, walk_relabel_cluster, pcl]
  rfl

theorem diff_step_next (L : PLattice) (s : PState) (c1 c2 : ℕ) (dv : V3) :
    (diff_step L s c1 c2 dv).next =
      updN (updN s.next ((memOf L s c2).getLastD 0)
          (s.next (s.first c1).toNat)) (s.first c1).toNat (s.first c2) := by
  unfold diff_step
  simp only []
  obtain ⟨pcl, pnx, pfi, psz, pwr, plg, pvc, poc, pbd, pnb, pnc, pvec, psp, pncm,
      ppa, ppth⟩ := perc_account_unch s c1 c2
  obtain ⟨wnb, wbd, wnp, wncp, wpth, wncl, wnclr, wfi, wsz, wwr, wlg, wnx, wvc,
      woc, wsp, wncm, wpa⟩ := walk_relabel_unch c1 dv
        (chainWalk (perc_account s c1 c2).next L.nsites
          ((perc_account s c1 c2).first c2).toNat) (perc_account s c1 c2)
  rw [(retire_step_unch _ c2).2.1]
  dsimp only
  rw [wnx, wfi, pnx, pfi]
  rfl

theorem diff_step_largest (L : PLattice) (s : PState) (c1 c2 : ℕ) (dv : V3) :
    (diff_step L s c1 c2 dv).largest =
      if pyGet s.nclus (updN s.size c1 (s.size c1 + s.size c2)) s.largest <
          updN s.size c1 (s.size c1 + s.size c2) c1
      then (c1 : ℤ) else s.largest := by
  unfold diff_step
  simp only []
  obtain ⟨pcl, pnx, pfi, psz, pwr, plg, pvc, poc, pbd, pnb, pnc, pvec, psp, pncm,
      ppa, ppth⟩ := perc_account_unch s c1 c2
  obtain ⟨wnb, wbd, wnp, wncp, wpth, wncl, wnclr, wfi, wsz, wwr, wlg, wnx, wvc,
      woc, wsp, wncm, wpa⟩ := walk_relabel_unch c1 dv
        (chainWalk (perc_account s c1 c2).next L.nsites
          ((perc_account s c1 c2).first c2).toNat) (perc_account s c1 c2)
  rw [(retire_step_unch _ c2).2.2.2.1]
  dsimp only
  rw [wsz, wncl, wlg, psz, pnc, plg]

theorem diff_step_nperc (L : PLattice) (s : PState) (c1 c2 : ℕ) (dv : V3) :
    (diff_step L s c1 c2 dv).npercolating = s.npercolating +
      (if 0 < wrapTot (s.wrap c1) ∧ wrapTot (s.wrap c2) = 0 then s.size c2
       else if wrapTot (s.wrap c1) = 0 ∧ 0 < wrapTot (s.wrap c2) then s.size c1
       else 0) := by
  unfold diff_step
  simp only []
  rw [(retire_step_unch _ c2).2.2.2.2.2.2.2.2.1]
  dsimp only
  rw [(walk_relabel_unch _ _ _ _).2.2.1]
  exact perc_account_nperc s c1 c2

theorem diff_step_del {L : PLattice} {s : PState} {c1 c2 : ℕ} (dv : V3)
    (hlast : s.nclus = c2 + 1) :
    (diff_step L s c1 c2 dv).nclus = c2 ∧
    (diff_step L s c1 c2 dv).first = s.first ∧
    (diff_step L s c1 c2 dv).size = updN s.size c1 (s.size c1 + s.size c2) ∧
    (diff_step L s c1 c2 dv).wrap = updN s.wrap c1 (wAdd (s.wrap c1) (s.wrap c2)) := by
  unfold diff_step
  simp only []
  obtain ⟨pcl, pnx, pfi, psz, pwr, plg, pvc, poc, pbd, pnb, pnc, pvec, psp, pncm,
      ppa, ppth⟩ := perc_account_unch s c1 c2
  obtain ⟨wnb, wbd, wnp, wncp, wpth, wncl, wnclr, wfi, wsz, wwr, wlg, wnx, wvc,
      woc, wsp, wncm, wpa⟩ := walk_relabel_unch c1 dv
        (chainWalk (perc_account s c1 c2).next L.nsites
          ((perc_account s c1 c2).first c2).toNat) (perc_account s c1 c2)
  rw [retire_of_last (by dsimp only; rw [wncl, pnc]; exact hlast)]
  dsimp only
  refine ⟨rfl, ?_, ?_, ?_⟩
  · rw [wfi, pfi]
  · rw [wsz, psz]
  · rw [wwr, pwr]

theorem diff_step_tomb {L : PLattice} {s : PState} {c1 c2 : ℕ} (dv : V3)
    (hlast : s.nclus ≠ c2 + 1) :
    (diff_step L s c1 c2 dv).nclus = s.nclus ∧
    (diff_step L s c1 c2 dv).first = updN s.first c2 (-1) ∧
    (diff_step L s c1 c2 dv).size = updN (updN s.size c1 (s.size c1 + s.size c2)) c2 0 ∧
    (diff_step L s c1 c2 dv).wrap =
      updN (updN s.wrap c1 (wAdd (s.wrap c1) (s.wrap c2))) c2 (0, 0, 0) := by
  unfold diff_step
  simp only []
  obtain ⟨pcl, pnx, pfi, psz, pwr, plg, pvc, poc, pbd, pnb, pnc, pvec, psp, pncm,
      ppa, ppth⟩ := perc_account_unch s c1 c2
  obtain ⟨wnb, wbd, wnp, wncp, wpth, wncl, wnclr, wfi, wsz, wwr, wlg, wnx, wvc,
      woc, wsp, wncm, wpa⟩ := walk_relabel_unch c1 dv
        (chainWalk (perc_account s c1 c2).next L.nsites
          ((perc_account s c1 c2).first c2).toNat) (perc_account s c1 c2)
  rw [retire_of_not_last (by dsimp only; rw [wncl, pnc]; exact hlast)]
  dsimp only
  refine ⟨by rw [wncl, pnc], ?_, ?_, ?_⟩
  · rw [wfi, pfi]
  · rw [wsz, psz]
  · rw [wwr, pwr]

theorem diff_step_vec_notmem (L : PLattice) (s : PState) (c1 c2 : ℕ) (dv : V3)
    (x : ℕ) (hx : x ∉ memOf L s c2) :
    (diff_step L s c1 c2 dv).vec x = s.vec x := by
  unfold diff_step
  simp only []
  obtain ⟨pcl, pnx, pfi, psz, pwr, plg, pvc, poc, pbd, pnb, pnc, pvec, psp, pncm,
      ppa, ppth⟩ := perc_account_unch s c1 c2
  rw [(retire_step_unch _ c2).2.2.1]
  dsimp only
  rw [pnx, pfi]
  have hx2 : x ∉ chainWalk s.next L.nsites (s.first c2).toNat := hx
  rw [walk_relabel_vec_notmem _ _ _ _ _ hx2, pvec]

theorem diff_step_vec_once (L : PLattice) (s : PState) (c1 c2 : ℕ) (dv : V3)
    (x : ℕ) (hx : (memOf L s c2).count x = 1) :
    (diff_step L s c1 c2 dv).vec x = s.vec x + dv := by
  unfold diff_step
  simp only []
  obtain ⟨pcl, pnx, pfi, psz, pwr, plg, pvc, poc, pbd, pnb, pnc, pvec, psp, pncm,
      ppa, ppth⟩ := perc_account_unch s c1 c2
  rw [(retire_step_unch _ c2).2.2.1]
  dsimp only
  rw [pnx, pfi]
  have hx2 : (chainWalk s.next L.nsites (s.first c2).toNat).count x = 1 := hx
  rw [walk_relabel_vec_once _ _ _ _ _ hx2, pvec]

theorem diff_step_inv {L : PLattice} {s : PState} {c1 c2 : ℕ}
    (inv : PInv L s) (hne12 : c1 ≠ c2)
    (hc1 : c1 < s.nclus) (hl1 : 0 < s.size c1)
    (hc2 : c2 < s.nclus) (hl2 : 0 < s.size c2)
    (dv : V3) : PInv L (diff_step L s c1 c2 dv) := by
  obtain ⟨hvc, hoc, hbd, hnb, hpth, hsp, hncm, hpa⟩ := diff_step_unch L s c1 c2 dv
  have hch2 : ChainAt s.next (s.first c2).toNat (memOf L s c2) := inv.chain c2 hc2 hl2
  have hnd2 : (memOf L s c2).Nodup := inv.mem_nodup c2 hc2 hl2
  have hlen2 : (memOf L s c2).length = s.size c2 := inv.mem_len c2 hc2 hl2
  have hmcl2 : ∀ x ∈ memOf L s c2, x < L.nsites ∧ s.cluster x = (c2 : ℤ) :=
    inv.mem_cl c2 hc2 hl2
  have hch1 : ChainAt s.next (s.first c1).toNat (memOf L s c1) := inv.chain c1 hc1 hl1
  have hnd1 : (memOf L s c1).Nodup := inv.mem_nodup c1 hc1 hl1
  have hlen1 : (memOf L s c1).length = s.size c1 := inv.mem_len c1 hc1 hl1
  have hmcl1 : ∀ x ∈ memOf L s c1, x < L.nsites ∧ s.cluster x = (c1 : ℤ) :=
    inv.mem_cl c1 hc1 hl1
  have hM2ne : memOf L s c2 ≠ [] := chainAt_ne_nil hch2
  have htmem : (memOf L s c2).getLastD 0 ∈ memOf L s c2 := lastOf_mem hM2ne
  have hdisj : ∀ x ∈ memOf L s c2, x ∉ memOf L s c1 := by
    intro x hx hx1
    have e2 := (hmcl2 x hx).2
    have e1 := (hmcl1 x hx1).2
    rw [e2] at e1
    exact hne12 (by exact_mod_cast e1.symm)
  obtain ⟨t1, hM1eq⟩ := chainAt_head hch1
  have hh_notM : (s.first c1).toNat ∉ memOf L s c2 := by
    intro hmem
    exact hdisj _ hmem (by rw [hM1eq]; simp)
  have ht_ne_h : (memOf L s c2).getLastD 0 ≠ (s.first c1).toNat := by
    intro e
    exact hh_notM (e ▸ htmem)
  have hf2 : 0 ≤ s.first c2 := inv.first_nonneg c2 hc2 hl2
  have hnx_h : (diff_step L s c1 c2 dv).next (s.first c1).toNat = s.first c2 := by
    rw [diff_step_next]
    exact updN_same _ _ _
  have hnx_t : (diff_step L s c1 c2 dv).next ((memOf L s c2).getLastD 0) =
      s.next (s.first c1).toNat := by
    rw [diff_step_next]
    rw [updN_ne _ _ _ ht_ne_h]
    exact updN_same _ _ _
  have hnx_other : ∀ x, x ≠ (s.first c1).toNat → x ≠ (memOf L s c2).getLastD 0 →
      (diff_step L s c1 c2 dv).next x = s.next x := by
    intro x hxh hxt
    rw [diff_step_next, updN_ne _ _ _ hxh, updN_ne _ _ _ hxt]
  have hagreeM : ∀ x ∈ memOf L s c2, x ≠ (memOf L s c2).getLastD 0 →
      (diff_step L s c1 c2 dv).next x = s.next x := by
    intro x hx hxt
    exact hnx_other x (fun e => hh_notM (e ▸ hx)) hxt
  have hchNew : ChainAt (diff_step L s c1 c2 dv).next (s.first c1).toNat
      ((s.first c1).toNat :: (memOf L s c2 ++ t1)) := by
    have hh1 : (s.first c1).toNat ∈ memOf L s c1 := by rw [hM1eq]; simp
    rw [hM1eq] at hch1 hnd1
    cases hch1 with
    | stop _ hneg =>
      have hMchain : ChainAt (diff_step L s c1 c2 dv).next
          ((s.first c2).toNat) (memOf L s c2) := by
        refine chainAt_redirect_neg hch2 hnd2 hagreeM ?_
        rw [hnx_t]
        exact hneg
      refine ChainAt.step _ _ ?_ ?_
      · rw [hnx_h]
        exact hf2
      · rw [hnx_h]
        simpa using hMchain
    | step _ _ hpos htail =>
      have htail2 : ChainAt (diff_step L s c1 c2 dv).next
          ((s.next (s.first c1).toNat).toNat) t1 := by
        refine chainAt_congr ?_ htail
        intro x hx
        refine hnx_other x ?_ ?_
        · intro e
          exact (List.nodup_cons.mp hnd1).1 (e ▸ hx)
        · intro e
          exact hdisj _ (e ▸ htmem) (by rw [hM1eq]; exact List.mem_cons_of_mem _ hx)
      have hMchain : ChainAt (diff_step L s c1 c2 dv).next
          ((s.first c2).toNat) (memOf L s c2 ++ t1) := by
        refine chainAt_redirect_pos hch2 hnd2 hagreeM ?_ ?_
        · rw [hnx_t]
          exact hpos
        · rw [hnx_t]
          exact htail2
      refine ChainAt.step _ _ ?_ ?_
      · rw [hnx_h]
        exact hf2
      · rw [hnx_h]
        simpa using hMchain
  have hnodupNew : ((s.first c1).toNat :: (memOf L s c2 ++ t1)).Nodup := by
    rw [hM1eq] at hnd1
    have hn1 := List.nodup_cons.mp hnd1
    refine List.nodup_cons.mpr ⟨?_, ?_⟩
    · intro hmem
      rcases List.mem_append.mp hmem with hmem | hmem
      · exact hh_notM hmem
      · exact hn1.1 hmem
    · refine List.Nodup.append hnd2 hn1.2 ?_
      intro x hx hx2
      exact hdisj x hx (by rw [hM1eq]; exact List.mem_cons_of_mem _ hx2)
  have hboundNew : ∀ x ∈ (s.first c1).toNat :: (memOf L s c2 ++ t1), x < L.nsites := by
    intro x hx
    rcases List.mem_cons.mp hx with rfl | hx
    · exact (hmcl1 _ (by rw [hM1eq]; simp)).1
    · rcases List.mem_append.mp hx with hx | hx
      · exact (hmcl2 x hx).1
      · exact (hmcl1 x (by rw [hM1eq]; exact List.mem_cons_of_mem _ hx)).1
  have hlenNew : ((s.first c1).toNat :: (memOf L s c2 ++ t1)).length =
      s.size c1 + s.size c2 := by
    have : (memOf L s c1).length = t1.length + 1 := by rw [hM1eq]; simp [Nat.add_comm]
    simp only [List.length_cons, List.length_append]
    omega
  have hmemNew : memOf L (diff_step L s c1 c2 dv) c1 =
      (s.first c1).toNat :: (memOf L s c2 ++ t1) := by
    have hfst : (diff_step L s c1 c2 dv).first c1 = s.first c1 := by
      by_cases hlast : s.nclus = c2 + 1
      · rw [(diff_step_del dv hlast).2.1]
      · rw [(diff_step_tomb dv hlast).2.1]
        exact updN_ne _ _ _ hne12
    unfold memOf
    rw [hfst]
    refine chainAt_walk hchNew L.nsites ?_
    have := nodup_bounded hnodupNew hboundNew
    omega
  have hclx := diff_step_cluster L s c1 c2 dv
  have hnp := diff_step_nperc L s c1 c2 dv
  have hlg0 : 0 ≤ s.largest := by
    by_contra hneg
    push_neg at hneg
    exact absurd (inv.larg_neg hneg c1 hc1) (by omega)
  have hsz_c1 : (diff_step L s c1 c2 dv).size c1 = s.size c1 + s.size c2 := by
    by_cases hlast : s.nclus = c2 + 1
    · rw [(diff_step_del dv hlast).2.2.1]
      exact updN_same _ _ _
    · rw [(diff_step_tomb dv hlast).2.2.1, updN_ne _ _ _ hne12]
      exact updN_same _ _ _
  have hsz_other : ∀ c, c ≠ c1 → c ≠ c2 → (diff_step L s c1 c2 dv).size c = s.size c := by
    intro c hcc1 hcc2
    by_cases hlast : s.nclus = c2 + 1
    · rw [(diff_step_del dv hlast).2.2.1]
      exact updN_ne _ _ _ hcc1
    · rw [(diff_step_tomb dv hlast).2.2.1, updN_ne _ _ _ hcc2]
      exact updN_ne _ _ _ hcc1
  have hncl_lt : ∀ c, c < (diff_step L s c1 c2 dv).nclus → c < s.nclus := by
    intro c hclt
    by_cases hlast : s.nclus = c2 + 1
    · rw [(diff_step_del dv hlast).1] at hclt
      omega
    · rwa [(diff_step_tomb dv hlast).1] at hclt
  have hlt_d : ∀ c, c < s.nclus → c ≠ c2 → c < (diff_step L s c1 c2 dv).nclus := by
    intro c hclt hcc2
    by_cases hlast : s.nclus = c2 + 1
    · rw [(diff_step_del dv hlast).1]
      omega
    · rw [(diff_step_tomb dv hlast).1]
      exact hclt
  have hc1d : c1 < (diff_step L s c1 c2 dv).nclus := hlt_d c1 hc1 hne12
  have hsz_c2_dead : c2 < (diff_step L s c1 c2 dv).nclus →
      (diff_step L s c1 c2 dv).size c2 = 0 := by
    intro hlt
    by_cases hlast : s.nclus = c2 + 1
    · rw [(diff_step_del dv hlast).1] at hlt
      omega
    · rw [(diff_step_tomb dv hlast).2.2.1]
      exact updN_same _ _ _
  have hwr_c1 : (diff_step L s c1 c2 dv).wrap c1 = wAdd (s.wrap c1) (s.wrap c2) := by
    by_cases hlast : s.nclus = c2 + 1
    · rw [(diff_step_del dv hlast).2.2.2]
      exact updN_same _ _ _
    · rw [(diff_step_tomb dv hlast).2.2.2, updN_ne _ _ _ hne12]
      exact updN_same _ _ _
  have hwr_other : ∀ c, c ≠ c1 → c ≠ c2 → (diff_step L s c1 c2 dv).wrap c = s.wrap c := by
    intro c hcc1 hcc2
    by_cases hlast : s.nclus = c2 + 1
    · rw [(diff_step_del dv hlast).2.2.2]
      exact updN_ne _ _ _ hcc1
    · rw [(diff_step_tomb dv hlast).2.2.2, updN_ne _ _ _ hcc2]
      exact updN_ne _ _ _ hcc1
  have hfi_ne : ∀ c, c ≠ c2 → (diff_step L s c1 c2 dv).first c = s.first c := by
    intro c hcc2
    by_cases hlast : s.nclus = c2 + 1
    · rw [(diff_step_del dv hlast).2.1]
    · rw [(diff_step_tomb dv hlast).2.1]
      exact updN_ne _ _ _ hcc2
  have hcov2 : ∀ i, i < L.nsites → s.cluster i = (c2 : ℤ) → i ∈ memOf L s c2 := by
    intro i hi hci
    have hnn : 0 ≤ s.cluster i := by rw [hci]; exact Int.ofNat_nonneg c2
    have := inv.cover i hi hnn
    rw [hci] at this
    simpa using this
  have hnewlab : ∀ x ∈ (s.first c1).toNat :: (memOf L s c2 ++ t1),
      (diff_step L s c1 c2 dv).cluster x = (c1 : ℤ) := by
    intro x hx
    rcases List.mem_cons.mp hx with rfl | hx
    · rw [hclx]
      rw [if_neg hh_notM]
      exact (hmcl1 _ (by rw [hM1eq]; simp)).2
    · rcases List.mem_append.mp hx with hx | hx
      · rw [hclx, if_pos hx]
      · have hxM1 : x ∈ memOf L s c1 := by
          rw [hM1eq]
          exact List.mem_cons_of_mem _ hx
        rw [hclx, if_neg (fun hmem => hdisj x hmem hxM1)]
        exact (hmcl1 x hxM1).2
  have hmem_other : ∀ c, c < s.nclus → 0 < s.size c → c ≠ c1 → c ≠ c2 →
      memOf L (diff_step L s c1 c2 dv) c = memOf L s c ∧
      ChainAt (diff_step L s c1 c2 dv).next
        ((diff_step L s c1 c2 dv).first c).toNat (memOf L s c) := by
    intro c hcn hcs hcc1 hcc2
    have hchc := inv.chain c hcn hcs
    have hmclc := inv.mem_cl c hcn hcs
    have hchc2 : ChainAt (diff_step L s c1 c2 dv).next (s.first c).toNat
        (memOf L s c) := by
      refine chainAt_congr ?_ hchc
      intro x hx
      refine hnx_other x ?_ ?_
      · intro e
        have hxc := (hmclc x hx).2
        have hxc1 := (hmcl1 (s.first c1).toNat (by rw [hM1eq]; simp)).2
        rw [e, hxc1] at hxc
        exact hcc1 (by exact_mod_cast hxc.symm)
      · intro e
        have hxc := (hmclc x hx).2
        have hxc2 := (hmcl2 _ htmem).2
        rw [e, hxc2] at hxc
        exact hcc2 (by exact_mod_cast hxc.symm)
    have hlenc : (memOf L s c).length ≤ L.nsites := by
      refine nodup_bounded (inv.mem_nodup c hcn hcs) ?_
      intro x hx
      exact (hmclc x hx).1
    constructor
    · unfold memOf
      rw [hfi_ne c hcc2]
      exact chainAt_walk hchc2 L.nsites (by omega)
    · rw [hfi_ne c hcc2]
      exact hchc2
  have hwrapTot_wAdd : ∀ a b : W3, wrapTot (wAdd a b) = wrapTot a + wrapTot b := by
    intro a b
    simp [wrapTot, wAdd]
    omega
  have hSZl : (diff_step L s c1 c2 dv).largest =
      if updN s.size c1 (s.size c1 + s.size c2) s.largest.toNat < s.size c1 + s.size c2
      then (c1 : ℤ) else s.largest := by
    rw [diff_step_largest]
    simp only [pyGet, hlg0, if_true, ite_true, updN_same]
  have hbondAt : ∀ a b, bondAt L (diff_step L s c1 c2 dv) a b = bondAt L s a b := by
    intro a b
    unfold bondAt
    rw [hbd]
  have htt : totalTrue L (diff_step L s c1 c2 dv) = totalTrue L s := by
    unfold totalTrue
    exact Finset.sum_congr rfl fun i _ => Finset.sum_congr rfl fun k _ => by rw [hbd]
  refine {
    cluster_out := ?_, vacant_lt := ?_, vacant_nodup := ?_, occ_iff := ?_,
    next_vacant := ?_, cl_live := ?_, first_nonneg := ?_, chain := ?_,
    mem_nodup := ?_, mem_len := ?_, mem_cl := ?_, cover := ?_,
    larg_neg := ?_, larg := ?_, nperc := ?_, bond_sym := ?_,
    bonds_count := ?_, attr := ?_ }
  · intro i hi
    have him : i ∉ memOf L s c2 := fun hm => absurd (hmcl2 i hm).1 (by omega)
    rw [hclx, if_neg him]
    exact inv.cluster_out i hi
  · rw [hvc]
    exact inv.vacant_lt
  · rw [hvc]
    exact inv.vacant_nodup
  · intro i hi
    rw [hvc, hclx]
    by_cases him : i ∈ memOf L s c2
    · rw [if_pos him]
      have h2 : s.cluster i = (c2 : ℤ) := (hmcl2 i him).2
      constructor
      · intro _
        exact (inv.occ_iff i hi).mp (by rw [h2]; exact Int.ofNat_nonneg c2)
      · intro _
        exact Int.ofNat_nonneg c1
    · rw [if_neg him]
      exact inv.occ_iff i hi
  · intro i hneg
    rw [hclx] at hneg
    by_cases him : i ∈ memOf L s c2
    · rw [if_pos him] at hneg
      exact absurd hneg (not_lt.mpr (Int.ofNat_nonneg c1))
    · rw [if_neg him] at hneg
      have hold := inv.next_vacant i hneg
      rw [hnx_other i ?_ ?_]
      · exact hold
      · intro e
        have := (hmcl1 (s.first c1).toNat (by rw [hM1eq]; simp)).2
        rw [e, this] at hneg
        exact absurd hneg (not_lt.mpr (Int.ofNat_nonneg c1))
      · intro e
        have := (hmcl2 _ htmem).2
        rw [e, this] at hneg
        exact absurd hneg (not_lt.mpr (Int.ofNat_nonneg c2))
  · intro i hnn
    rw [hclx] at hnn ⊢
    by_cases him : i ∈ memOf L s c2
    · rw [if_pos him] at hnn ⊢
      simp only [Int.toNat_ofNat]
      exact ⟨hc1d, by rw [hsz_c1]; omega⟩
    · rw [if_neg him] at hnn ⊢
      obtain ⟨hlt, hpos⟩ := inv.cl_live i hnn
      have hi : i < L.nsites := by
        by_contra hge
        have := inv.cluster_out i (by omega)
        rw [this] at hnn
        omega
      have hne2 : (s.cluster i).toNat ≠ c2 := by
        intro e
        refine him (hcov2 i hi ?_)
        rw [← e]
        exact (Int.toNat_of_nonneg hnn).symm
      refine ⟨hlt_d _ hlt hne2, ?_⟩
      by_cases he1 : (s.cluster i).toNat = c1
      · rw [he1, hsz_c1]
        omega
      · rw [hsz_other _ he1 hne2]
        exact hpos
  · intro c hcd hsd
    by_cases hcc2 : c = c2
    · subst hcc2
      rw [hsz_c2_dead hcd] at hsd
      omega
    · rw [hfi_ne c hcc2]
      by_cases hcc1 : c = c1
      · subst hcc1
        exact inv.first_nonneg c hc1 hl1
      · rw [hsz_other c hcc1 hcc2] at hsd
        exact inv.first_nonneg c (hncl_lt c hcd) hsd
  · intro c hcd hsd
    by_cases hcc2 : c = c2
    · subst hcc2
      rw [hsz_c2_dead hcd] at hsd
      omega
    · by_cases hcc1 : c = c1
      · subst hcc1
        rw [hmemNew, hfi_ne c hne12]
        exact hchNew
      · rw [hsz_other c hcc1 hcc2] at hsd
        obtain ⟨hmeq, hch⟩ := hmem_other c (hncl_lt c hcd) hsd hcc1 hcc2
        rw [hmeq]
        exact hch
  · intro c hcd hsd
    by_cases hcc2 : c = c2
    · subst hcc2
      rw [hsz_c2_dead hcd] at hsd
      omega
    · by_cases hcc1 : c = c1
      · subst hcc1
        rw [hmemNew]
        exact hnodupNew
      · rw [hsz_other c hcc1 hcc2] at hsd
        rw [(hmem_other c (hncl_lt c hcd) hsd hcc1 hcc2).1]
        exact inv.mem_nodup c (hncl_lt c hcd) hsd
  · intro c hcd hsd
    by_cases hcc2 : c = c2
    · subst hcc2
      rw [hsz_c2_dead hcd] at hsd
      omega
    · by_cases hcc1 : c = c1
      · subst hcc1
        rw [hmemNew, hsz_c1]
        exact hlenNew
      · rw [hsz_other c hcc1 hcc2] at hsd ⊢
        rw [(hmem_other c (hncl_lt c hcd) hsd hcc1 hcc2).1]
        exact inv.mem_len c (hncl_lt c hcd) hsd
  · intro c hcd hsd
    by_cases hcc2 : c = c2
    · subst hcc2
      rw [hsz_c2_dead hcd] at hsd
      omega
    · by_cases hcc1 : c = c1
      · subst hcc1
        rw [hmemNew]
        intro x hx
        exact ⟨hboundNew x hx, hnewlab x hx⟩
      · rw [hsz_other c hcc1 hcc2] at hsd
        rw [(hmem_other c (hncl_lt c hcd) hsd hcc1 hcc2).1]
        intro x hx
        have hold := inv.mem_cl c (hncl_lt c hcd) hsd x hx
        refine ⟨hold.1, ?_⟩
        rw [hclx, if_neg ?_]
        · exact hold.2
        · intro hm
          have := (hmcl2 x hm).2
          rw [hold.2] at this
          exact hcc2 (by exact_mod_cast this)
  · intro i hi hnn
    rw [hclx] at hnn ⊢
    by_cases him : i ∈ memOf L s c2
    · rw [if_pos him] at hnn ⊢
      simp only [Int.toNat_ofNat]
      rw [hmemNew]
      exact List.mem_cons_of_mem _ (List.mem_append.mpr (Or.inl him))
    · rw [if_neg him] at hnn ⊢
      have hold := inv.cover i hi hnn
      have hne2 : (s.cluster i).toNat ≠ c2 := by
        intro e
        refine him (hcov2 i hi ?_)
        rw [← e]
        exact (Int.toNat_of_nonneg hnn).symm
      by_cases he1 : (s.cluster i).toNat = c1
      · rw [he1, hmemNew]
        rw [he1, hM1eq] at hold
        rcases List.mem_cons.mp hold with rfl | hold
        · simp
        · exact List.mem_cons_of_mem _ (List.mem_append.mpr (Or.inr hold))
      · obtain ⟨hlt, hpos⟩ := inv.cl_live i hnn
        rw [(hmem_other _ hlt hpos he1 hne2).1]
        exact hold
  · intro hneg
    rw [hSZl] at hneg
    split at hneg
    · exact absurd hneg (not_lt.mpr (Int.ofNat_nonneg c1))
    · exact absurd hneg (not_lt.mpr hlg0)
  · intro hnn
    obtain ⟨holdlt, holdpos, holdmax⟩ := inv.larg hlg0
    rw [hSZl]
    by_cases hcond : updN s.size c1 (s.size c1 + s.size c2) s.largest.toNat <
        s.size c1 + s.size c2
    · rw [if_pos hcond]
      simp only [Int.toNat_ofNat]
      refine ⟨hc1d, by rw [hsz_c1]; omega, ?_⟩
      have hl0ne : s.largest.toNat ≠ c1 := by
        intro e
        rw [e, updN_same] at hcond
        omega
      rw [updN_ne _ _ _ hl0ne] at hcond
      intro c hcd
      by_cases hcc1 : c = c1
      · subst hcc1
        omega
      · by_cases hcc2 : c = c2
        · subst hcc2
          rw [hsz_c2_dead hcd, hsz_c1]
          omega
        · rw [hsz_other c hcc1 hcc2, hsz_c1]
          have := holdmax c (hncl_lt c hcd)
          omega
    · rw [if_neg hcond]
      have hl0ne2 : s.largest.toNat ≠ c2 := by
        intro e
        rw [updN_ne _ _ _ (by omega : s.largest.toNat ≠ c1)] at hcond
        rw [e] at hcond
        omega
      refine ⟨hlt_d _ holdlt hl0ne2, ?_, ?_⟩
      · by_cases he1 : s.largest.toNat = c1
        · rw [he1, hsz_c1]
          omega
        · rw [hsz_other _ he1 hl0ne2]
          exact holdpos
      · intro c hcd
        by_cases hcc1 : c = c1
        · subst hcc1
          rw [hsz_c1]
          by_cases he1 : s.largest.toNat = c
          · rw [he1, hsz_c1]
          · rw [hsz_other _ he1 hl0ne2, updN_ne _ _ _ he1] at *
            omega
        · by_cases hcc2 : c = c2
          · subst hcc2
            rw [hsz_c2_dead hcd]
            omega
          · rw [hsz_other c hcc1 hcc2]
            have hmax := holdmax c (hncl_lt c hcd)
            by_cases he1 : s.largest.toNat = c1
            · rw [he1] at hmax ⊢
              rw [hsz_c1]
              omega
            · rw [hsz_other _ he1 hl0ne2]
              omega
  · rw [hnp]
    unfold percSum
    have hold := inv.nperc
    unfold percSum at hold
    by_cases hlast : s.nclus = c2 + 1
    · rw [(diff_step_del dv hlast).1]
      have hc1c2 : c1 < c2 := by omega
      have hsum := sum_congr_except_one
          (fun c => if 0 < wrapTot (s.wrap c) then s.size c else 0)
          (fun c => if 0 < wrapTot ((diff_step L s c1 c2 dv).wrap c)
                    then (diff_step L s c1 c2 dv).size c else 0)
          c2 c1 hc1c2 (by
            intro c hcc2 hcc1
            simp only []
            have hcc2ne : c ≠ c2 := by omega
            rw [hwr_other c hcc1 hcc2ne, hsz_other c hcc1 hcc2ne])
      simp only [] at hsum
      rw [hwr_c1, hsz_c1, hwrapTot_wAdd] at hsum
      rw [hlast, Finset.sum_range_succ] at hold
      by_cases hw1 : 0 < wrapTot (s.wrap c1) <;> by_cases hw2 : 0 < wrapTot (s.wrap c2)
      · rw [if_neg (by omega : ¬ (0 < wrapTot (s.wrap c1) ∧ wrapTot (s.wrap c2) = 0))]
        rw [if_neg (by omega : ¬ (wrapTot (s.wrap c1) = 0 ∧ 0 < wrapTot (s.wrap c2)))]
        rw [if_pos hw1, if_pos (by omega : 0 < wrapTot (s.wrap c1) + wrapTot (s.wrap c2))]
          at hsum
        rw [if_pos hw2] at hold
        omega
      · rw [if_pos ⟨hw1, by omega⟩]
        rw [if_pos hw1, if_pos (by omega : 0 < wrapTot (s.wrap c1) + wrapTot (s.wrap c2))]
          at hsum
        rw [if_neg hw2] at hold
        omega
      · rw [if_neg (by omega : ¬ (0 < wrapTot (s.wrap c1) ∧ wrapTot (s.wrap c2) = 0))]
        rw [if_pos ⟨by omega, hw2⟩]
        rw [if_neg hw1, if_pos (by omega : 0 < wrapTot (s.wrap c1) + wrapTot (s.wrap c2))]
          at hsum
        rw [if_pos hw2] at hold
        omega
      · rw [if_neg (by omega : ¬ (0 < wrapTot (s.wrap c1) ∧ wrapTot (s.wrap c2) = 0))]
        rw [if_neg (by omega : ¬ (wrapTot (s.wrap c1) = 0 ∧ 0 < wrapTot (s.wrap c2)))]
        rw [if_neg hw1, if_neg (by omega : ¬ 0 < wrapTot (s.wrap c1) + wrapTot (s.wrap c2))]
          at hsum
        rw [if_neg hw2] at hold
        omega
    · rw [(diff_step_tomb dv hlast).1]
      have hwr2 : (diff_step L s c1 c2 dv).wrap c2 = (0, 0, 0) := by
        rw [(diff_step_tomb dv hlast).2.2.2]
        exact updN_same _ _ _
      have hsz2 : (diff_step L s c1 c2 dv).size c2 = 0 := by
        rw [(diff_step_tomb dv hlast).2.2.1]
        exact updN_same _ _ _
      have hsum := sum_congr_except_two
          (fun c => if 0 < wrapTot (s.wrap c) then s.size c else 0)
          (fun c => if 0 < wrapTot ((diff_step L s c1 c2 dv).wrap c)
                    then (diff_step L s c1 c2 dv).size c else 0)
          s.nclus c1 c2 hc1 hc2 hne12 (by
            intro c hcn hcc1 hcc2
            simp only []
            rw [hwr_other c hcc1 hcc2, hsz_other c hcc1 hcc2])
      simp only [] at hsum
      rw [hwr_c1, hsz_c1, hwrapTot_wAdd, hwr2, hsz2] at hsum
      rw [show (if 0 < wrapTot ((0,0,0) : W3) then 0 else 0) = 0 by simp] at hsum
      by_cases hw1 : 0 < wrapTot (s.wrap c1) <;> by_cases hw2 : 0 < wrapTot (s.wrap c2)
      · rw [if_neg (by omega : ¬ (0 < wrapTot (s.wrap c1) ∧ wrapTot (s.wrap c2) = 0))]
        rw [if_neg (by omega : ¬ (wrapTot (s.wrap c1) = 0 ∧ 0 < wrapTot (s.wrap c2)))]
        rw [if_pos hw1, if_pos hw2,
          if_pos (by omega : 0 < wrapTot (s.wrap c1) + wrapTot (s.wrap c2))] at hsum
        omega
      · rw [if_pos ⟨hw1, by omega⟩]
        rw [if_pos hw1, if_neg hw2,
          if_pos (by omega : 0 < wrapTot (s.wrap c1) + wrapTot (s.wrap c2))] at hsum
        omega
      · rw [if_neg (by omega : ¬ (0 < wrapTot (s.wrap c1) ∧ wrapTot (s.wrap c2) = 0))]
        rw [if_pos ⟨by omega, hw2⟩]
        rw [if_neg hw1, if_pos hw2,
          if_pos (by omega : 0 < wrapTot (s.wrap c1) + wrapTot (s.wrap c2))] at hsum
        omega
      · rw [if_neg (by omega : ¬ (0 < wrapTot (s.wrap c1) ∧ wrapTot (s.wrap c2) = 0))]
        rw [if_neg (by omega : ¬ (wrapTot (s.wrap c1) = 0 ∧ 0 < wrapTot (s.wrap c2)))]
        rw [if_neg hw1, if_neg hw2,
          if_neg (by omega : ¬ 0 < wrapTot (s.wrap c1) + wrapTot (s.wrap c2))] at hsum
        omega
  · intro i hi j hj
    rw [hbondAt, hbondAt]
    exact inv.bond_sym i hi j hj
  · rw [hnb, htt]
    exact inv.bonds_count
  · rw [hpa]
    exact inv.attr

theorem merge_clusters_inv {L : PLattice} {s : PState} {c1 s1 c2 s2 : ℕ} (T2 : V3)
    (hw : LatticeWF L) (inv : PInv L s)
    (h1 : s1 < L.nsites) (h2 : s2 < L.nsites) (hadj : s2 ∈ nbrsOf L s1)
    (hcl1 : s.cluster s1 = (c1 : ℤ)) (hcl2 : s.cluster s2 = (c2 : ℤ)) :
    PInv L (merge_clusters L s c1 s1 c2 s2 T2) := by
  have hc1 : c1 < s.nclus ∧ 0 < s.size c1 := by
    have h := inv.cl_live s1 (by rw [hcl1]; exact Int.ofNat_nonneg c1)
    rw [hcl1] at h
    simpa using h
  have hc2 : c2 < s.nclus ∧ 0 < s.size c2 := by
    have h := inv.cl_live s2 (by rw [hcl2]; exact Int.ofNat_nonneg c2)
    rw [hcl2] at h
    simpa using h
  by_cases hcs : check_special L s s1 s2 = true
  · have invB : PInv L (bond_step L s s1 s2) := bond_step_inv hw inv h1 h2 hadj
    obtain ⟨-, -, -, bsz, -, -, -, -, -, bncl, -, -, -, -, -, -, -⟩ :=
      bond_step_unch L s s1 s2
    by_cases hc : c1 = c2
    · rw [merge_of_same hcs hc]
      exact same_step_inv invB (by rw [bncl]; exact hc1.1) _
    · rw [merge_of_diff hcs hc]
      exact diff_step_inv invB hc (by rw [bncl]; exact hc1.1) (by rw [bsz]; exact hc1.2)
        (by rw [bncl]; exact hc2.1) (by rw [bsz]; exact hc2.2) _
  · rw [merge_of_not_special c1 c2 T2 (by simpa using hcs)]
    exact inv

theorem foldl_preserve_mem {α β : Type} (P : β → Prop) (Q : α → Prop)
    (f : β → α → β) (hf : ∀ b a, Q a → P b → P (f b a)) :
    ∀ l : List α, (∀ a ∈ l, Q a) → ∀ b, P b → P (l.foldl f b) := by
  intro l
  induction l with
  | nil =>
    intro _ b hb
    exact hb
  | cons x xs ih =>
    intro hQ b hb
    exact ih (fun a ha => hQ a (List.mem_cons_of_mem _ ha)) _
      (hf b x (hQ x (List.mem_cons_self _ _)) hb)

theorem getD_indexOf {l : List ℕ} {v : ℕ} (h : v ∈ l) : l.getD (l.indexOf v) 0 = v := by
  induction l with
  | nil => simp at h
  | cons a l ih =>
    by_cases hav : v = a
    · subst hav
      simp [List.indexOf_cons_self]
    · rw [List.indexOf_cons_ne _ (fun e => hav e.symm)]
      rcases List.mem_cons.mp h with h1 | h1
      · exact absurd h1 hav
      · simpa using ih h1

theorem chainWalk_stop {nx : ℕ → ℤ} {i : ℕ} (h : nx i < 0) :
    ∀ fuel, chainWalk nx fuel i = [i] := by
  intro fuel
  cases fuel with
  | zero => rfl
  | succ n =>
    unfold chainWalk
    rw [if_neg (not_le.mpr h)]

theorem merge_clusters_keeps (L : PLattice) (s : PState) (c1 s1 c2 s2 : ℕ) (T2 : V3) :
    (merge_clusters L s c1 s1 c2 s2 T2).vacant = s.vacant ∧
    (merge_clusters L s c1 s1 c2 s2 T2).occupied = s.occupied := by
  by_cases hcs : check_special L s s1 s2 = true
  · obtain ⟨-, -, -, -, -, -, bvc, boc, -, -, -, -, -, -, -, -, -⟩ :=
      bond_step_unch L s s1 s2
    by_cases hc : c1 = c2
    · rw [merge_of_same hcs hc]
      obtain ⟨-, -, -, -, -, svc, soc, -, -, -, -, -, -, -, -⟩ :=
        same_step_unch (bond_step L s s1 s2) c1
          ((bond_step L s s1 s2).vec s1 - (cooAt L s2 + T2 - cooAt L s1) -
            (bond_step L s s1 s2).vec s2)
      exact ⟨svc.trans bvc, soc.trans boc⟩
    · rw [merge_of_diff hcs hc]
      obtain ⟨dvc, doc, -, -, -, -, -, -⟩ :=
        diff_step_unch L (bond_step L s s1 s2) c1 c2
          ((bond_step L s s1 s2).vec s1 - (cooAt L s2 + T2 - cooAt L s1) -
            (bond_step L s s1 s2).vec s2)
      exact ⟨dvc.trans bvc, doc.trans boc⟩
  · rw [merge_of_not_special c1 c2 T2 (by simpa using hcs)]
    exact ⟨rfl, rfl⟩

theorem add_base_inv {L : PLattice} {s t : PState} {site k : ℕ}
    (inv : PInv L s) (hk : k < s.vacant.length) (hsite : s.vacant.getD k 0 = site)
    (hcl : t.cluster = updN s.cluster site (s.nclus : ℤ))
    (hnx : t.next = s.next)
    (hfi : t.first = updN s.first s.nclus (site : ℤ))
    (hsz : t.size = updN s.size s.nclus 1)
    (hwr : t.wrap = updN s.wrap s.nclus ((0, 0, 0) : W3))
    (hvc : t.vacant = s.vacant.eraseIdx k)
    (hnp : t.npercolating = s.npercolating)
    (hnc : t.nclus = s.nclus + 1)
    (hbd : t.bonds = s.bonds)
    (hnb : t.nbonds = s.nbonds)
    (hpa : t.percAttr = s.percAttr)
    (hlg : (0 ≤ s.largest ∧ t.largest = s.largest) ∨
           (s.largest < 0 ∧ t.largest = (s.nclus : ℤ))) :
    PInv L t := by
  have hsite_mem : site ∈ s.vacant := hsite ▸ getD_mem_of_lt hk
  have hsiten : site < L.nsites := inv.vacant_lt site hsite_mem
  have hclsite : s.cluster site < 0 := by
    by_contra hge
    exact (inv.occ_iff site hsiten).mp (le_of_not_lt hge) hsite_mem
  have hnxsite : s.next site = -1 := inv.next_vacant site hclsite
  have hnot_erase : site ∉ s.vacant.eraseIdx k := by
    rw [mem_eraseIdx_nodup inv.vacant_nodup hk]
    rintro ⟨-, hne⟩
    exact hne hsite.symm
  have hmem_old : ∀ c, c < s.nclus → memOf L t c = memOf L s c := by
    intro c hc
    unfold memOf
    rw [hnx, hfi, updN_ne _ _ _ (by omega : c ≠ s.nclus)]
  have hmem_new : memOf L t s.nclus = [site] := by
    unfold memOf
    rw [hnx, hfi, updN_same]
    simp only [Int.toNat_ofNat]
    exact chainWalk_stop (by rw [hnxsite]; omega) _
  have hbondAt : ∀ a b, bondAt L t a b = bondAt L s a b := by
    intro a b
    unfold bondAt
    rw [hbd]
  have htt : totalTrue L t = totalTrue L s := by
    unfold totalTrue
    exact Finset.sum_congr rfl fun i _ => Finset.sum_congr rfl fun j _ => by rw [hbd]
  refine {
    cluster_out := ?_, vacant_lt := ?_, vacant_nodup := ?_, occ_iff := ?_,
    next_vacant := ?_, cl_live := ?_, first_nonneg := ?_, chain := ?_,
    mem_nodup := ?_, mem_len := ?_, mem_cl := ?_, cover := ?_,
    larg_neg := ?_, larg := ?_, nperc := ?_, bond_sym := ?_,
    bonds_count := ?_, attr := ?_ }
  · intro i hi
    rw [hcl, updN_ne _ _ _ (by omega : i ≠ site)]
    exact inv.cluster_out i hi
  · intro i hi2
    rw [hvc] at hi2
    exact inv.vacant_lt i ((mem_eraseIdx_nodup inv.vacant_nodup hk i).mp hi2).1
  · rw [hvc]
    exact eraseIdx_nodup inv.vacant_nodup k
  · intro i hi
    rw [hcl, hvc]
    by_cases he : i = site
    · subst he
      rw [updN_same]
      exact ⟨fun _ => hnot_erase, fun _ => Int.ofNat_nonneg _⟩
    · rw [updN_ne _ _ _ he, mem_eraseIdx_nodup inv.vacant_nodup hk, hsite]
      constructor
      · intro h0 hm
        exact (inv.occ_iff i hi).mp h0 hm.1
      · intro h0
        exact (inv.occ_iff i hi).mpr (fun hm => h0 ⟨hm, he⟩)
  · intro i hneg
    rw [hcl] at hneg
    rw [hnx]
    by_cases he : i = site
    · subst he
      exact hnxsite
    · rw [updN_ne _ _ _ he] at hneg
      exact inv.next_vacant i hneg
  · intro i h0
    rw [hcl] at h0 ⊢
    rw [hnc, hsz]
    by_cases he : i = site
    · subst he
      rw [updN_same]
      simp only [Int.toNat_ofNat]
      rw [updN_same]
      exact ⟨Nat.lt_succ_self _, Nat.one_pos⟩
    · rw [updN_ne _ _ _ he] at h0 ⊢
      obtain ⟨h1, h2⟩ := inv.cl_live i h0
      refine ⟨by omega, ?_⟩
      rw [updN_ne _ _ _ (by omega : (s.cluster i).toNat ≠ s.nclus)]
      exact h2
  · intro c hc hs
    rw [hnc] at hc
    rw [hsz] at hs
    rw [hfi]
    by_cases he : c = s.nclus
    · subst he
      rw [updN_same]
      exact Int.ofNat_nonneg site
    · rw [updN_ne _ _ _ he] at hs ⊢
      exact inv.first_nonneg c (by omega) hs
  · intro c hc hs
    rw [hnc] at hc
    rw [hsz] at hs
    by_cases he : c = s.nclus
    · subst he
      rw [hmem_new, hnx, hfi, updN_same]
      simp only [Int.toNat_ofNat]
      exact ChainAt.stop site (by rw [hnxsite]; omega)
    · rw [updN_ne _ _ _ he] at hs
      rw [hmem_old c (by omega), hnx, hfi, updN_ne _ _ _ he]
      exact inv.chain c (by omega) hs
  · intro c hc hs
    rw [hnc] at hc
    rw [hsz] at hs
    by_cases he : c = s.nclus
    · subst he
      rw [hmem_new]
      exact List.nodup_singleton site
    · rw [updN_ne _ _ _ he] at hs
      rw [hmem_old c (by omega)]
      exact inv.mem_nodup c (by omega) hs
  · intro c hc hs
    rw [hnc] at hc
    rw [hsz] at hs ⊢
    by_cases he : c = s.nclus
    · subst he
      rw [hmem_new, updN_same]
      rfl
    · rw [updN_ne _ _ _ he] at hs ⊢
      rw [hmem_old c (by omega)]
      exact inv.mem_len c (by omega) hs
  · intro c hc hs
    rw [hnc] at hc
    rw [hsz] at hs
    by_cases he : c = s.nclus
    · subst he
      rw [hmem_new]
      intro x hx
      rw [List.mem_singleton] at hx
      subst hx
      exact ⟨hsiten, by rw [hcl, updN_same]⟩
    · rw [updN_ne _ _ _ he] at hs
      rw [hmem_old c (by omega)]
      intro x hx
      obtain ⟨hx1, hx2⟩ := inv.mem_cl c (by omega) hs x hx
      refine ⟨hx1, ?_⟩
      rw [hcl, updN_ne _ _ _ ?_]
      · exact hx2
      · intro e
        rw [e] at hx2
        rw [hx2] at hclsite
        omega
  · intro i hi h0
    rw [hcl] at h0 ⊢
    by_cases he : i = site
    · subst he
      rw [updN_same]
      simp only [Int.toNat_ofNat]
      rw [hmem_new]
      exact List.mem_singleton_self i
    · rw [updN_ne _ _ _ he] at h0 ⊢
      have hlive := inv.cl_live i h0
      rw [hmem_old _ hlive.1]
      exact inv.cover i hi h0
  · intro hneg c hc
    rcases hlg with ⟨h1, h2⟩ | ⟨h1, h2⟩
    · rw [h2] at hneg
      omega
    · rw [h2] at hneg
      exact absurd hneg (not_lt.mpr (Int.ofNat_nonneg _))
  · intro h0
    rw [hnc, hsz]
    rcases hlg with ⟨h1, h2⟩ | ⟨h1, h2⟩
    · rw [h2]
      obtain ⟨l1, l2, l3⟩ := inv.larg h1
      have hne : s.largest.toNat ≠ s.nclus := by omega
      refine ⟨by omega, ?_, ?_⟩
      · rw [updN_ne _ _ _ hne]
        exact l2
      · intro c hc
        rw [updN_ne _ _ _ hne]
        by_cases he : c = s.nclus
        · subst he
          rw [updN_same]
          omega
        · rw [updN_ne _ _ _ he]
          exact l3 c (by omega)
    · rw [h2]
      simp only [Int.toNat_ofNat]
      refine ⟨Nat.lt_succ_self _, by rw [updN_same]; exact Nat.one_pos, ?_⟩
      intro c hc
      by_cases he : c = s.nclus
      · subst he
        exact le_refl _
      · rw [updN_ne _ _ _ he, updN_same]
        have := inv.larg_neg h1 c (by omega)
        omega
  · rw [hnp, inv.nperc]
    unfold percSum
    rw [hnc, Finset.sum_range_succ]
    have hlastterm : (if 0 < wrapTot (t.wrap s.nclus) then t.size s.nclus else 0) = 0 := by
      rw [hwr, updN_same]
      simp [wrapTot]
    rw [hlastterm, Nat.add_zero]
    refine Finset.sum_congr rfl ?_
    intro c hc
    have hcne : c ≠ s.nclus := by
      have := Finset.mem_range.mp hc
      omega
    rw [hwr, hsz, updN_ne _ _ _ hcne, updN_ne _ _ _ hcne]
  · intro i hi j hj
    rw [hbondAt, hbondAt]
    exact inv.bond_sym i hi j hj
  · rw [hnb, htt]
    exact inv.bonds_count
  · rw [hpa]
    exact inv.attr

theorem add_site_at_inv {L : PLattice} {s : PState} {site k : ℕ}
    (hw : LatticeWF L) (inv : PInv L s)
    (hk : k < s.vacant.length) (hsite : s.vacant.getD k 0 = site) :
    PInv L (add_site_at L s site k) ∧
    (add_site_at L s site k).vacant = s.vacant.eraseIdx k ∧
    (add_site_at L s site k).occupied = s.occupied ++ [site] := by
  obtain ⟨hrange, hnoself, hsymm, hidx⟩ := hw
  have hsite_mem : site ∈ s.vacant := hsite ▸ getD_mem_of_lt hk
  have hsiten : site < L.nsites := inv.vacant_lt site hsite_mem
  have hnot_erase : site ∉ s.vacant.eraseIdx k := by
    rw [mem_eraseIdx_nodup inv.vacant_nodup hk]
    rintro ⟨-, hne⟩
    exact hne hsite.symm
  simp only [add_site_at]
  refine foldl_preserve_mem
      (fun st => PInv L st ∧ st.vacant = s.vacant.eraseIdx k ∧
        st.occupied = s.occupied ++ [site])
      (fun i => i < (nbrsOf L site).length) _ ?_ _
      (fun a ha => List.mem_range.mp ha) _ ?_
  · intro st i hi hP
    obtain ⟨hinv, hvac, hocc⟩ := hP
    have hnbmem : (nbrsOf L site).getD i 0 ∈ nbrsOf L site := getD_mem_of_lt hi
    have hnbn : (nbrsOf L site).getD i 0 < L.nsites := hrange site hsiten _ hnbmem
    have hadj : site ∈ nbrsOf L ((nbrsOf L site).getD i 0) := hsymm site hsiten _ hnbmem
    by_cases hg : 0 ≤ st.cluster ((nbrsOf L site).getD i 0)
    · rw [if_pos hg]
      have hsiteocc : 0 ≤ st.cluster site :=
        (hinv.occ_iff site hsiten).mpr (by rw [hvac]; exact hnot_erase)
      have hnb_not : (nbrsOf L site).getD i 0 ∉ s.vacant.eraseIdx k := by
        intro hmem
        have h2 := (hinv.occ_iff _ hnbn).mp hg
        rw [hvac] at h2
        exact h2 hmem
      have h1 : PInv L (merge_clusters L st (st.cluster ((nbrsOf L site).getD i 0)).toNat
          ((nbrsOf L site).getD i 0) (st.cluster site).toNat site (-(tvAt L site i))) :=
        merge_clusters_inv _ ⟨hrange, hnoself, hsymm, hidx⟩ hinv hnbn hsiten hadj
          (Int.toNat_of_nonneg hg).symm (Int.toNat_of_nonneg hsiteocc).symm
      have hkeep := merge_clusters_keeps L st (st.cluster ((nbrsOf L site).getD i 0)).toNat
          ((nbrsOf L site).getD i 0) (st.cluster site).toNat site (-(tvAt L site i))
      have hP1 := And.intro h1 (And.intro (hkeep.1.trans hvac) (hkeep.2.trans hocc))
      split
      · refine foldl_preserve_mem
            (fun st2 => PInv L st2 ∧ st2.vacant = s.vacant.eraseIdx k ∧
              st2.occupied = s.occupied ++ [site])
            (fun j => j < (nbrsOf L ((nbrsOf L site).getD i 0)).length) _ ?_ _
            (fun a ha => List.mem_range.mp ha) _ hP1
        intro st2 j hj hP2
        obtain ⟨h2inv, h2vac, h2occ⟩ := hP2
        have hnb2mem : (nbrsOf L ((nbrsOf L site).getD i 0)).getD j 0 ∈
            nbrsOf L ((nbrsOf L site).getD i 0) := getD_mem_of_lt hj
        have hnb2n : (nbrsOf L ((nbrsOf L site).getD i 0)).getD j 0 < L.nsites :=
          hrange _ hnbn _ hnb2mem
        have hadj2 : (nbrsOf L site).getD i 0 ∈
            nbrsOf L ((nbrsOf L ((nbrsOf L site).getD i 0)).getD j 0) :=
          hsymm _ hnbn _ hnb2mem
        by_cases hg2 : 0 ≤ st2.cluster ((nbrsOf L ((nbrsOf L site).getD i 0)).getD j 0)
        · rw [if_pos hg2]
          have hnbocc : 0 ≤ st2.cluster ((nbrsOf L site).getD i 0) :=
            (h2inv.occ_iff _ hnbn).mpr (by rw [h2vac]; exact hnb_not)
          have h3 := merge_clusters_inv (-(tvAt L ((nbrsOf L site).getD i 0) j))
            ⟨hrange, hnoself, hsymm, hidx⟩ h2inv hnb2n hnbn hadj2
            (Int.toNat_of_nonneg hg2).symm (Int.toNat_of_nonneg hnbocc).symm
          have hkeep2 := merge_clusters_keeps L st2
            (st2.cluster ((nbrsOf L ((nbrsOf L site).getD i 0)).getD j 0)).toNat
            ((nbrsOf L ((nbrsOf L site).getD i 0)).getD j 0)
            (st2.cluster ((nbrsOf L site).getD i 0)).toNat ((nbrsOf L site).getD i 0)
            (-(tvAt L ((nbrsOf L site).getD i 0) j))
          exact ⟨h3, hkeep2.1.trans h2vac, hkeep2.2.trans h2occ⟩
        · rw [if_neg hg2]
          exact ⟨h2inv, h2vac, h2occ⟩
      · exact hP1
    · rw [if_neg hg]
      exact ⟨hinv, hvac, hocc⟩
  · refine ⟨?_, by split <;> rfl, by split <;> rfl⟩
    by_cases hlg : s.largest < 0
    · rw [if_pos hlg]
      exact add_base_inv inv hk hsite rfl rfl rfl rfl rfl rfl rfl rfl rfl rfl rfl
        (Or.inr ⟨hlg, updN_same _ _ _⟩)
    · rw [if_neg hlg]
      exact add_base_inv inv hk hsite rfl rfl rfl rfl rfl rfl rfl rfl rfl rfl rfl
        (Or.inl ⟨le_of_not_lt hlg, rfl⟩)

theorem add_percolating_site_inv {L : PLattice} {s : PState}
    (hw : LatticeWF L) (inv : PInv L s) (site? : Option ℕ) (sel : ℕ) :
    PInv L (add_percolating_site L s site? sel) := by
  simp only [add_percolating_site]
  by_cases h0 : s.vacant.length = 0
  · rw [if_pos h0]
    exact inv
  · rw [if_neg h0]
    by_cases hf : pyFalsy site? = true
    · rw [if_pos hf]
      exact (add_site_at_inv hw inv (Nat.mod_lt _ (Nat.pos_of_ne_zero h0)) rfl).1
    · rw [if_neg hf]
      by_cases hv : site?.getD 0 ∈ s.vacant
      · rw [if_pos hv]
        exact (add_site_at_inv hw inv (List.indexOf_lt_length.mpr hv) (getD_indexOf hv)).1
      · rw [if_neg hv]
        exact inv

theorem reset_inv (L : PLattice) (sp : Bool) (k : ℕ) : PInv L (resetState L sp k) := by
  refine {
    cluster_out := fun i _ => rfl,
    vacant_lt := fun i hi => List.mem_range.mp hi,
    vacant_nodup := List.nodup_range L.nsites,
    occ_iff := ?_, next_vacant := fun i _ => rfl,
    cl_live := fun i h => by simp [resetState] at h,
    first_nonneg := fun c hc _ => absurd hc (Nat.not_lt_zero c),
    chain := fun c hc _ => absurd hc (Nat.not_lt_zero c),
    mem_nodup := fun c hc _ => absurd hc (Nat.not_lt_zero c),
    mem_len := fun c hc _ => absurd hc (Nat.not_lt_zero c),
    mem_cl := fun c hc _ => absurd hc (Nat.not_lt_zero c),
    cover := fun i _ h => by simp [resetState] at h,
    larg_neg := fun _ c _ => rfl,
    larg := fun h => by simp [resetState] at h,
    nperc := by simp [percSum, resetState],
    bond_sym := fun i _ j _ => rfl,
    bonds_count := by simp [totalTrue, resetState],
    attr := rfl }
  intro i hi
  constructor
  · intro h
    simp [resetState] at h
  · intro h
    exact absurd (List.mem_range.mpr hi) h

theorem rule_inv {L : PLattice} {s : PState} (inv : PInv L s) (k : ℕ) :
    PInv L (set_special_percolation_rule s k) :=
  pinv_congr inv rfl rfl rfl rfl rfl rfl rfl rfl rfl inv.bond_sym inv.bonds_count rfl

theorem inv_reachable {L : PLattice} (hw : LatticeWF L) {s : PState}
    (h : Reachable L s) : PInv L s := by
  induction h with
  | reset sp k => exact reset_inv L sp k
  | add s site? sel _ ih => exact add_percolating_site_inv hw ih site? sel
  | rule s k _ ih => exact rule_inv ih k

theorem reach_run4s4 : Reachable chain4 run4s4 :=
  Reachable.add run4s3 none 0 (Reachable.add run4s2 none 0 (Reachable.add run4s1 none 0
    (Reachable.add run4s0 none 0 (Reachable.reset false 0))))

theorem reach_run2s2 : Reachable chain2 run2s2 :=
  Reachable.add run2s1 none 0 (Reachable.add run2s0 none 0 (Reachable.reset false 0))

theorem reach_runPs4 : Reachable pairs4 runPs4 :=
  Reachable.add runPs3 (some 1) 0 (Reachable.add runPs2 (some 3) 0
    (Reachable.add runPs1 (some 2) 0 (Reachable.add runPs0 none 0
      (Reachable.reset false 0))))

theorem totalTrue_le (L : PLattice) (s : PState) :
    totalTrue L s ≤ ∑ i ∈ Finset.range L.nsites, dcount L i := by
  unfold totalTrue
  refine Finset.sum_le_sum ?_
  intro i _
  calc ∑ k ∈ Finset.range (dcount L i), (if s.bonds i k then 1 else 0)
      ≤ ∑ k ∈ Finset.range (dcount L i), 1 :=
        Finset.sum_le_sum (fun k _ => by split <;> omega)
    _ = dcount L i := by simp

/-- C1: in every state reachable from `reset` by `add_percolating_site`
operations (on a well-formed lattice), `npercolating` equals the sum of
`size[c]` over the live clusters whose wrapping vector has a positive
component. -/
theorem claim_C1 {L : PLattice} {s : PState} (hw : LatticeWF L)
    (hr : Reachable L s) : s.npercolating = percSum s :=
  (inv_reachable hw hr).nperc

theorem claim_C1_witness : run4s4.npercolating = percSum run4s4 :=
  claim_C1 (by decide) reach_run4s4

/-- C2: in every reachable state, `2 * nbonds` equals the number of
`True` entries across the per-site bonds arrays, and `nbonds` is at most
`B_max = (Σ_i #distinct neighbors of i) / 2`; this holds in particular
on lattices where one site pair occupies several neighbor slots. -/
theorem claim_C2 {L : PLattice} {s : PState} (hw : LatticeWF L)
    (hr : Reachable L s) :
    2 * s.nbonds = totalTrue L s ∧ s.nbonds ≤ nbondsTot L := by
  have h := (inv_reachable hw hr).bonds_count
  refine ⟨h, ?_⟩
  have h2 := totalTrue_le L s
  rw [← h] at h2
  unfold nbondsTot
  rw [Nat.le_div_iff_mul_le (by norm_num)]
  omega

theorem claim_C2_witness :
    2 * run2s2.nbonds = totalTrue chain2 run2s2 ∧ run2s2.nbonds ≤ nbondsTot chain2 :=
  claim_C2 (by decide) reach_run2s2

/-- C3: the claim asserts `num_percolating` returns the maintained
counter `npercolating` and never fails; in the source the property reads
`len(self._percolating)` and `_percolating` is never assigned, so in
every reachable state the lookup fails (`none`) instead of returning
`npercolating` — the code has a bug (an `AttributeError` at query
time). -/
theorem claim_C3 {L : PLattice} {s : PState} (hw : LatticeWF L)
    (hr : Reachable L s) : num_percolating s = none := by
  unfold num_percolating
  rw [(inv_reachable hw hr).attr]
  rfl

theorem claim_C3_witness : num_percolating run4s4 = none :=
  claim_C3 (by decide) reach_run4s4

/-- C5 (corrected): in every reachable state with `largest ≥ 0`, the
cluster named by `largest` is live and its size is maximal among live
clusters; the spec's further tie-break assertion — that among equally
sized clusters `largest` is the lowest id — is false (see the
counterexample). -/
theorem claim_C5 {L : PLattice} {s : PState} (hw : LatticeWF L)
    (hr : Reachable L s) (h0 : 0 ≤ s.largest) :
    s.largest.toNat < s.nclus ∧ 0 < s.size s.largest.toNat ∧
    ∀ c, c < s.nclus → s.size c ≤ s.size s.largest.toNat :=
  (inv_reachable hw hr).larg h0

theorem claim_C5_witness :
    0 ≤ run4s4.largest ∧
    (run4s4.largest.toNat < run4s4.nclus ∧ 0 < run4s4.size run4s4.largest.toNat ∧
      ∀ c, c < run4s4.nclus → run4s4.size c ≤ run4s4.size run4s4.largest.toNat) :=
  ⟨by decide, claim_C5 (by decide) reach_run4s4 (by decide)⟩

/-- C5 counterexample: in the reachable state `runPs4` the two live
clusters 0 and 1 both have the maximal size 2, yet `largest = 1` — ties
are not broken by lowest cluster id. -/
theorem claim_C5_cex :
    Reachable pairs4 runPs4 ∧ runPs4.nclus = 2 ∧ runPs4.size 0 = 2 ∧
    runPs4.size 1 = 2 ∧ runPs4.largest = 1 :=
  ⟨reach_runPs4, by decide⟩

/-- C4 (corrected): after `set_special_percolation_rule(k)` the
installed predicate on sites `i`, `j` returns `True` iff the common
neighbor list is NONEMPTY and at least `k` of the common neighbors are
occupied.  The spec's claim — `occCommon ≥ k` alone, with `k = 0`
accepting every pair — fails for pairs without common neighbors, whose
loop body never runs and falls through to `return False` (see the
counterexample). -/
theorem claim_C4 (L : PLattice) (s : PState) (k i j : ℕ) :
    check_special L (set_special_percolation_rule s k) i j = true ↔
      get_common_neighbors L i j ≠ [] ∧ k ≤ occCommon L s i j := by
  unfold check_special set_special_percolation_rule occCommon
  simp only [if_pos]
  rw [special_loop_iff s.cluster k (get_common_neighbors L i j) 0, Nat.zero_add]

/-- C4 counterexample: on the two-site lattice `pair2` the adjacent
sites 0 and 1 have no common neighbors; with the rule installed at
`num_common = 0` the predicate still returns `False`, refuting "for
`k = 0` it returns true for every pair". -/
theorem claim_C4_cex :
    check_special pair2 (set_special_percolation_rule (resetState pair2 false 0) 0) 0 1
      = false ∧
    occCommon pair2 (resetState pair2 false 0) 0 1 = 0 := by
  decide

theorem same_step_id (s : PState) (c1 : ℕ) (dv : V3)
    (hx : ¬ qhalf < qabs dv.x) (hy : ¬ qhalf < qabs dv.y)
    (hz : ¬ qhalf < qabs dv.z) : same_step s c1 dv = s := by
  simp only [same_step]
  rw [if_neg hx, if_neg hy, if_neg hz,
    if_neg (by rintro ⟨h1, h2⟩; omega :
      ¬ (wrapTot (s.wrap c1) = 0 ∧ 0 < wrapTot (s.wrap c1)))]

/-- C7 (corrected): a repeated `_merge_clusters` call on an
already-bonded pair of sites of the same cluster is a no-op ONLY under
the spec's tacit proviso that the displacement mismatch `delta` is
(approximately) zero: if the bond is already marked and every component
of `delta` is at most 1/2 in absolute value, the state is returned
unchanged.  Without the proviso the claim is false: repeating the call
with the translation of a wrapping neighbor slot re-increments the
wrapping counters and `npaths` (see the counterexample). -/
theorem claim_C7 (L : PLattice) (s : PState) (c1 s1 s2 : ℕ) (T2 : V3)
    (hb : s.bonds s1 ((nbrsOf L s1).indexOf s2) = true)
    (hx : qabs ((s.vec s1 - (cooAt L s2 + T2 - cooAt L s1) - s.vec s2)).x ≤ qhalf)
    (hy : qabs ((s.vec s1 - (cooAt L s2 + T2 - cooAt L s1) - s.vec s2)).y ≤ qhalf)
    (hz : qabs ((s.vec s1 - (cooAt L s2 + T2 - cooAt L s1) - s.vec s2)).z ≤ qhalf) :
    merge_clusters L s c1 s1 c1 s2 T2 = s := by
  by_cases hcs : check_special L s s1 s2 = true
  · rw [merge_of_same hcs rfl, bond_step_of_true hb]
    exact same_step_id s c1 _ (not_lt.mpr hx) (not_lt.mpr hy) (not_lt.mpr hz)
  · exact merge_of_not_special c1 c1 T2 (by simpa using hcs)

theorem claim_C7_witness : merge_clusters chain2 run2s2 0 0 0 1 V3.zero = run2s2 :=
  claim_C7 chain2 run2s2 0 0 1 V3.zero (by decide) (by decide) (by decide) (by decide)

/-- C7 counterexample: in the reachable state `run2s2` sites 0 and 1 are
occupied, adjacent, already bonded and in the same cluster; repeating
the merge with the wrap-around translation `T = (-1,0,0)` of the
duplicate neighbor slot is NOT a no-op: `npaths` climbs from 1 to 2 (the
wrapping counter is re-incremented). -/
theorem claim_C7_cex :
    run2s2.cluster 0 = 0 ∧ run2s2.cluster 1 = 0 ∧
    run2s2.bonds 0 ((nbrsOf chain2 0).indexOf 1) = true ∧
    run2s2.npaths = 1 ∧
    (merge_clusters chain2 run2s2 0 0 0 1 ⟨-1, 0, 0⟩).npaths = 2 ∧
    (merge_clusters chain2 run2s2 0 0 0 1 ⟨-1, 0, 0⟩).wrap 0 = (2, 0, 0) ∧
    run2s2.wrap 0 = (1, 0, 0) := by
  decide

theorem add_site_at_keeps (L : PLattice) (s : PState) (site k : ℕ) :
    (add_site_at L s site k).vacant = s.vacant.eraseIdx k ∧
    (add_site_at L s site k).occupied = s.occupied ++ [site] := by
  simp only [add_site_at]
  refine foldl_preserve_mem
      (fun st : PState => st.vacant = s.vacant.eraseIdx k ∧
        st.occupied = s.occupied ++ [site])
      (fun _ => True) _ ?_ _ (fun _ _ => trivial) _ ?_
  · intro st i _ hP
    obtain ⟨hvac, hocc⟩ := hP
    by_cases hg : 0 ≤ st.cluster ((nbrsOf L site).getD i 0)
    · rw [if_pos hg]
      have hkeep := merge_clusters_keeps L st (st.cluster ((nbrsOf L site).getD i 0)).toNat
          ((nbrsOf L site).getD i 0) (st.cluster site).toNat site (-(tvAt L site i))
      have hP1 := And.intro (hkeep.1.trans hvac) (hkeep.2.trans hocc)
      split
      · refine foldl_preserve_mem
            (fun st2 : PState => st2.vacant = s.vacant.eraseIdx k ∧
              st2.occupied = s.occupied ++ [site])
            (fun _ => True) _ ?_ _ (fun _ _ => trivial) _ hP1
        intro st2 j _ hP2
        obtain ⟨h2vac, h2occ⟩ := hP2
        by_cases hg2 : 0 ≤ st2.cluster ((nbrsOf L ((nbrsOf L site).getD i 0)).getD j 0)
        · rw [if_pos hg2]
          have hkeep2 := merge_clusters_keeps L st2
            (st2.cluster ((nbrsOf L ((nbrsOf L site).getD i 0)).getD j 0)).toNat
            ((nbrsOf L ((nbrsOf L site).getD i 0)).getD j 0)
            (st2.cluster ((nbrsOf L site).getD i 0)).toNat ((nbrsOf L site).getD i 0)
            (-(tvAt L ((nbrsOf L site).getD i 0) j))
          exact ⟨hkeep2.1.trans h2vac, hkeep2.2.trans h2occ⟩
        · rw [if_neg hg2]
          exact ⟨h2vac, h2occ⟩
      · exact hP1
    · rw [if_neg hg]
      exact ⟨hvac, hocc⟩
  · exact ⟨by split <;> rfl, by split <;> rfl⟩

/-- C10: `add_percolating_site(site=0)` is not honored: `if not site:`
treats the integer 0 like `None`, so the call takes the random branch
(first conjunct: the two calls coincide for every selector); an explicit
NONZERO vacant site is honored (second conjunct), and the random branch
occupies the selected vacant-pool entry (third conjunct). -/
theorem claim_C10 (L : PLattice) (s : PState) (sel : ℕ) :
    add_percolating_site L s (some 0) sel = add_percolating_site L s none sel ∧
    (∀ v, v ≠ 0 → v ∈ s.vacant →
      (add_percolating_site L s (some v) sel).occupied = s.occupied ++ [v]) ∧
    (s.vacant.length ≠ 0 →
      (add_percolating_site L s none sel).occupied =
        s.occupied ++ [s.vacant.getD (sel % s.vacant.length) 0]) := by
  refine ⟨rfl, ?_, ?_⟩
  · intro v hv0 hvm
    have hlen : s.vacant.length ≠ 0 := by
      intro h
      rw [List.length_eq_zero] at h
      rw [h] at hvm
      simp at hvm
    simp only [add_percolating_site, Option.getD_some]
    rw [if_neg hlen, if_neg (by simp [pyFalsy, hv0]), if_pos hvm]
    exact (add_site_at_keeps L s v _).2
  · intro hlen
    simp only [add_percolating_site]
    rw [if_neg hlen, if_pos (show pyFalsy none = true from rfl)]
    exact (add_site_at_keeps L s _ _).2

theorem claim_C10_witness :
    add_percolating_site chain4 run4s0 (some 0) 0 =
      add_percolating_site chain4 run4s0 none 0 ∧
    (add_percolating_site chain4 run4s0 (some 2) 0).occupied = run4s0.occupied ++ [2] ∧
    (add_percolating_site chain4 run4s0 none 0).occupied =
      run4s0.occupied ++ [run4s0.vacant.getD (0 % run4s0.vacant.length) 0] :=
  ⟨(claim_C10 chain4 run4s0 0).1,
   (claim_C10 chain4 run4s0 0).2.1 2 (by decide) (by decide),
   (claim_C10 chain4 run4s0 0).2.2 (by decide)⟩

theorem trial_fold_running {L : PLattice} {sels : List ℕ} :
    ∀ (l : List ℕ) (r : TrialRes) (s3 : PState),
      l.foldl (trial_step L sels) r = TrialRes.running s3 →
      (∃ s0, r = TrialRes.running s0) ∧ (L.nsites - 1) ∉ l := by
  intro l
  induction l with
  | nil =>
    intro r s3 h
    exact ⟨⟨s3, h⟩, List.not_mem_nil _⟩
  | cons x xs ih =>
    intro r s3 h
    obtain ⟨⟨s0, h0⟩, hnot⟩ := ih (trial_step L sels r x) s3 h
    match r with
    | TrialRes.wrapped s1 => simp [trial_step] at h0
    | TrialRes.failed s1 => simp [trial_step] at h0
    | TrialRes.running s1 =>
      refine ⟨⟨s1, rfl⟩, ?_⟩
      intro hmem
      simp only [trial_step] at h0
      split at h0
      · exact absurd h0 (by simp)
      · split at h0
        · exact absurd h0 (by simp)
        · rcases List.mem_cons.mp hmem with h1 | h1
          · rename_i hcond
            exact hcond h1.symm
          · exact hnot h1

theorem trial_fold_class {L : PLattice} {sels : List ℕ} :
    ∀ (l : List ℕ) (r : TrialRes),
      (∀ s, r = TrialRes.wrapped s →
        0 < (s.wrap s.largest.toNat).1 ∧ 0 < (s.wrap s.largest.toNat).2.1 ∧
        0 < (s.wrap s.largest.toNat).2.2) →
      (∀ s, r = TrialRes.failed s →
        ¬ (0 < (s.wrap s.largest.toNat).1 ∧ 0 < (s.wrap s.largest.toNat).2.1 ∧
          0 < (s.wrap s.largest.toNat).2.2)) →
      (∀ s, l.foldl (trial_step L sels) r = TrialRes.wrapped s →
        0 < (s.wrap s.largest.toNat).1 ∧ 0 < (s.wrap s.largest.toNat).2.1 ∧
        0 < (s.wrap s.largest.toNat).2.2) ∧
      (∀ s, l.foldl (trial_step L sels) r = TrialRes.failed s →
        ¬ (0 < (s.wrap s.largest.toNat).1 ∧ 0 < (s.wrap s.largest.toNat).2.1 ∧
          0 < (s.wrap s.largest.toNat).2.2)) := by
  intro l
  induction l with
  | nil =>
    intro r hw hf
    exact ⟨hw, hf⟩
  | cons x xs ih =>
    intro r hw hf
    refine ih (trial_step L sels r x) ?_ ?_
    · intro s h
      match r with
      | TrialRes.wrapped s1 =>
        simp only [trial_step] at h
        injection h with he
        subst he
        exact hw _ rfl
      | TrialRes.failed s1 => simp [trial_step] at h
      | TrialRes.running s1 =>
        simp only [trial_step] at h
        split at h
        · injection h with he
          subst he
          assumption
        · split at h <;> exact absurd h (by simp)
    · intro s h
      match r with
      | TrialRes.wrapped s1 => simp [trial_step] at h
      | TrialRes.failed s1 =>
        simp only [trial_step] at h
        injection h with he
        subst he
        exact hf _ rfl
      | TrialRes.running s1 =>
        simp only [trial_step] at h
        split at h
        · exact absurd h (by simp)
        · split at h
          · injection h with he
            subst he
            assumption
          · exact absurd h (by simp)

/-- C9: in a `percolation_point` trial, exhausting all sites without
meeting the all-three-directions wrapping criterion ends in the
"rule never percolates" error exit (and that exit is absorbing), while a
trial whose largest cluster wraps along all three directions stops via
the `break` without the error: the loop never just runs out, and the
final states of the two exits are characterized by the criterion. -/
theorem claim_C9 (L : PLattice) (sp : Bool) (k : ℕ) (sels : List ℕ)
    (hn : 0 < L.nsites) :
    (∀ s, percolation_point_trial L sp k sels ≠ TrialRes.running s) ∧
    (∀ s, percolation_point_trial L sp k sels = TrialRes.failed s →
      ¬ (0 < (s.wrap s.largest.toNat).1 ∧ 0 < (s.wrap s.largest.toNat).2.1 ∧
        0 < (s.wrap s.largest.toNat).2.2)) ∧
    (∀ s, percolation_point_trial L sp k sels = TrialRes.wrapped s →
      (0 < (s.wrap s.largest.toNat).1 ∧ 0 < (s.wrap s.largest.toNat).2.1 ∧
        0 < (s.wrap s.largest.toNat).2.2)) ∧
    (∀ s n, trial_step L sels (TrialRes.failed s) n = TrialRes.failed s) := by
  have hclass := @trial_fold_class L sels (List.range L.nsites)
      (TrialRes.running (resetState L sp k))
      (by intro s h; exact absurd h (by simp))
      (by intro s h; exact absurd h (by simp))
  refine ⟨?_, hclass.2, hclass.1, fun s n => rfl⟩
  intro s h
  have h2 := trial_fold_running (List.range L.nsites) _ s h
  exact h2.2 (List.mem_range.mpr (by omega))

theorem claim_C9_witness :
    percolation_point_trial chain4 false 0 [0, 0, 0, 0] ≠
      TrialRes.running (resetState chain4 false 0) :=
  (claim_C9 chain4 false 0 [0, 0, 0, 0] (by decide)).1 (resetState chain4 false 0)

/-- C8 (corrected): the binomial convolution as implemented starts at
`n = 1`, so on the constant sequence `Pn ≡ 1` it sums to
`1 − (1−p)^N` — the missing `n = 0` term `(1−p)^N` — and NOT to 1 as the
spec claims (see the counterexample at `N = 1`, `p = 1/2`). -/
theorem claim_C8 (N : ℕ) (p : ℚ) :
    calc_p_infinity_conv N (fun _ => 1) p = 1 - (1 - p) ^ N := by
  have h := add_pow p (1 - p) N
  rw [show p + (1 - p) = (1 : ℚ) by ring, one_pow, Finset.sum_range_succ'] at h
  unfold calc_p_infinity_conv binom_pmf
  simp only [mul_one]
  have hsum : ∑ n ∈ Finset.range N, (N.choose (n + 1) : ℚ) * p ^ (n + 1) *
        (1 - p) ^ (N - (n + 1)) =
      ∑ n ∈ Finset.range N, p ^ (n + 1) * (1 - p) ^ (N - (n + 1)) *
        (N.choose (n + 1) : ℚ) :=
    Finset.sum_congr rfl fun n _ => by ring
  rw [hsum]
  simp only [pow_zero, Nat.sub_zero, Nat.choose_zero_right, Nat.cast_one, one_mul,
    mul_one] at h
  linarith

theorem claim_C8_cex :
    calc_p_infinity_conv 1 (fun _ => 1) (mkRat 1 2) = mkRat 1 2 ∧
    (mkRat 1 2 : ℚ) ≠ 1 := by
  constructor
  · simp [calc_p_infinity_conv, binom_pmf]
  · rw [Rat.mkRat_eq_div]
    norm_num

theorem foldl_qmin_le (l : List ℚ) :
    ∀ b : ℚ, l.foldl qmin b ≤ b ∧ ∀ a ∈ l, l.foldl qmin b ≤ a := by
  induction l with
  | nil =>
    intro b
    exact ⟨le_refl b, fun a ha => absurd ha (List.not_mem_nil a)⟩
  | cons x xs ih =>
    intro b
    obtain ⟨h1, h2⟩ := ih (qmin b x)
    have hbx : qmin b x ≤ b ∧ qmin b x ≤ x := by
      rw [qmin_eq]
      exact ⟨min_le_left b x, min_le_right b x⟩
    refine ⟨h1.trans hbx.1, ?_⟩
    intro a ha
    rcases List.mem_cons.mp ha with rfl | ha
    · exact h1.trans hbx.2
    · exact h2 a ha

theorem listMin_le (l : List ℚ) : ∀ a ∈ l, listMin l ≤ a := by
  intro a ha
  match l, ha with
  | x :: xs, ha =>
    rcases List.mem_cons.mp ha with rfl | ha
    · exact (foldl_qmin_le xs a).1
    · exact (foldl_qmin_le xs x).2 a ha

theorem scan_spec (dr : ℚ) (hdr : 0 ≤ dr) :
    ∀ (cands : List NbCand) (cur : ℚ) (acc : List (ℕ × ℚ × V3)),
      (∀ x ∈ acc, cur ≤ x.2.1) →
      (get_nearest_neighbors_scan dr cands cur acc).2 ≤ cur ∧
      (∀ x ∈ acc, x.2.1 ≤ qadd (get_nearest_neighbors_scan dr cands cur acc).2 dr →
        x ∈ (get_nearest_neighbors_scan dr cands cur acc).1) ∧
      (∀ c ∈ cands, ∀ p ∈ c.imgs,
        p.1 ≤ qadd (get_nearest_neighbors_scan dr cands cur acc).2 dr →
        (c.j, p) ∈ (get_nearest_neighbors_scan dr cands cur acc).1) := by
  intro cands
  induction cands with
  | nil =>
    intro cur acc hinv
    refine ⟨le_refl cur, fun x hx _ => hx, ?_⟩
    intro c hc
    exact absurd hc (List.not_mem_nil c)
  | cons c rest ih =>
    intro cur acc hinv
    simp only [get_nearest_neighbors_scan]
    have hdm : ∀ p ∈ c.imgs, listMin (c.imgs.map Prod.fst) ≤ p.1 := by
      intro p hp
      exact listMin_le _ _ (List.mem_map.mpr ⟨p, hp, rfl⟩)
    have hcur1 : qmin (listMin (c.imgs.map Prod.fst)) cur ≤ cur := by
      rw [qmin_eq]
      exact min_le_right _ _
    have hcur1d : qmin (listMin (c.imgs.map Prod.fst)) cur ≤
        listMin (c.imgs.map Prod.fst) := by
      rw [qmin_eq]
      exact min_le_left _ _
    by_cases hclr : qadd (listMin (c.imgs.map Prod.fst)) dr < cur
    · rw [if_pos hclr]
      have hinv1 : ∀ x ∈ ([] : List (ℕ × ℚ × V3)),
          qmin (listMin (c.imgs.map Prod.fst)) cur ≤ x.2.1 := by
        intro x hx
        exact absurd hx (List.not_mem_nil x)
      by_cases hskip : qadd (qmin (listMin (c.imgs.map Prod.fst)) cur) dr <
          listMin (c.imgs.map Prod.fst)
      · rw [if_pos hskip]
        obtain ⟨ihfin, ihacc, ihcands⟩ := ih (qmin (listMin (c.imgs.map Prod.fst)) cur) [] hinv1
        refine ⟨ihfin.trans hcur1, ?_, ?_⟩
        · intro x hx hle
          have hxc := hinv x hx
          rw [qadd_eq] at hle hclr
          have : (get_nearest_neighbors_scan dr rest
              (qmin (listMin (c.imgs.map Prod.fst)) cur) []).2 ≤
              listMin (c.imgs.map Prod.fst) := ihfin.trans hcur1d
          linarith
        · intro c2 hc2 p hp hle
          rcases List.mem_cons.mp hc2 with rfl | hc2
          · have h1 := hdm p hp
            have h2 : (get_nearest_neighbors_scan dr rest
                (qmin (listMin (c2.imgs.map Prod.fst)) cur) []).2 ≤
                qmin (listMin (c2.imgs.map Prod.fst)) cur := ihfin
            rw [qadd_eq] at hle hskip
            linarith
          · exact ihcands c2 hc2 p hp hle
      · rw [if_neg hskip]
        have hinv2 : ∀ x ∈ ([] : List (ℕ × ℚ × V3)) ++
            nn_collect dr (qmin (listMin (c.imgs.map Prod.fst)) cur) c,
            qmin (listMin (c.imgs.map Prod.fst)) cur ≤ x.2.1 := by
          intro x hx
          rw [List.nil_append] at hx
          unfold nn_collect at hx
          obtain ⟨p, hpf, rfl⟩ := List.mem_map.mp hx
          exact hcur1d.trans (hdm p (List.mem_of_mem_filter hpf))
        obtain ⟨ihfin, ihacc, ihcands⟩ := ih (qmin (listMin (c.imgs.map Prod.fst)) cur)
          ([] ++ nn_collect dr (qmin (listMin (c.imgs.map Prod.fst)) cur) c) hinv2
        refine ⟨ihfin.trans hcur1, ?_, ?_⟩
        · intro x hx hle
          have hxc := hinv x hx
          rw [qadd_eq] at hle hclr
          have : (get_nearest_neighbors_scan dr rest
              (qmin (listMin (c.imgs.map Prod.fst)) cur)
              ([] ++ nn_collect dr (qmin (listMin (c.imgs.map Prod.fst)) cur) c)).2 ≤
              listMin (c.imgs.map Prod.fst) := ihfin.trans hcur1d
          linarith
        · intro c2 hc2 p hp hle
          rcases List.mem_cons.mp hc2 with rfl | hc2
          · refine ihacc (c2.j, p) ?_ hle
            rw [List.nil_append]
            unfold nn_collect
            refine List.mem_map.mpr ⟨p, List.mem_filter.mpr ⟨hp, ?_⟩, rfl⟩
            rw [decide_eq_true_eq, qadd_eq]
            rw [qadd_eq] at hle
            have := ihfin
            linarith
          · exact ihcands c2 hc2 p hp hle
    · rw [if_neg hclr]
      have hinv1 : ∀ x ∈ acc, qmin (listMin (c.imgs.map Prod.fst)) cur ≤ x.2.1 :=
        fun x hx => hcur1.trans (hinv x hx)
      by_cases hskip : qadd (qmin (listMin (c.imgs.map Prod.fst)) cur) dr <
          listMin (c.imgs.map Prod.fst)
      · rw [if_pos hskip]
        obtain ⟨ihfin, ihacc, ihcands⟩ := ih (qmin (listMin (c.imgs.map Prod.fst)) cur)
          acc hinv1
        refine ⟨ihfin.trans hcur1, ?_, ?_⟩
        · intro x hx hle
          exact ihacc x hx hle
        · intro c2 hc2 p hp hle
          rcases List.mem_cons.mp hc2 with rfl | hc2
          · have h1 := hdm p hp
            have h2 := ihfin
            rw [qadd_eq] at hle hskip
            linarith
          · exact ihcands c2 hc2 p hp hle
      · rw [if_neg hskip]
        have hinv2 : ∀ x ∈ acc ++
            nn_collect dr (qmin (listMin (c.imgs.map Prod.fst)) cur) c,
            qmin (listMin (c.imgs.map Prod.fst)) cur ≤ x.2.1 := by
          intro x hx
          rcases List.mem_append.mp hx with hx | hx
          · exact hinv1 x hx
          · unfold nn_collect at hx
            obtain ⟨p, hpf, rfl⟩ := List.mem_map.mp hx
            exact hcur1d.trans (hdm p (List.mem_of_mem_filter hpf))
        obtain ⟨ihfin, ihacc, ihcands⟩ := ih (qmin (listMin (c.imgs.map Prod.fst)) cur)
          (acc ++ nn_collect dr (qmin (listMin (c.imgs.map Prod.fst)) cur) c) hinv2
        refine ⟨ihfin.trans hcur1, ?_, ?_⟩
        · intro x hx hle
          exact ihacc x (List.mem_append.mpr (Or.inl hx)) hle
        · intro c2 hc2 p hp hle
          rcases List.mem_cons.mp hc2 with rfl | hc2
          · refine ihacc (c2.j, p) ?_ hle
            refine List.mem_append.mpr (Or.inr ?_)
            unfold nn_collect
            refine List.mem_map.mpr ⟨p, List.mem_filter.mpr ⟨hp, ?_⟩, rfl⟩
            rw [decide_eq_true_eq, qadd_eq]
            rw [qadd_eq] at hle
            have := ihfin
            linarith
          · exact ihcands c2 hc2 p hp hle

/-- C6 (corrected): the filtering loop of `get_nearest_neighbors` is
COMPLETE — every pair whose distance is within the final running minimum
plus `dr` is returned — but not exact: because clearing the accumulator
requires strictly `d_min + dr < d_min_min`, a slowly decreasing scan
keeps stale pairs whose distance exceeds the final `d_min + dr`, so the
returned set depends on the candidate order and is a superset of the
specified one (see the counterexample). -/
theorem claim_C6 (dr : ℚ) (hdr : 0 ≤ dr) (cands : List NbCand) (cur0 : ℚ)
    (c : NbCand) (hc : c ∈ cands) (p : ℚ × V3) (hp : p ∈ c.imgs)
    (hle : p.1 ≤ qadd (get_nearest_neighbors_scan dr cands cur0 []).2 dr) :
    (c.j, p) ∈ (get_nearest_neighbors_scan dr cands cur0 []).1 :=
  (scan_spec dr hdr cands cur0 [] (fun x hx => absurd hx (List.not_mem_nil x))).2.2
    c hc p hp hle

theorem claim_C6_witness :
    ((9 : ℕ), (mkRat 17 20, V3.zero)) ∈
      (get_nearest_neighbors_scan (mkRat 1 10) cands6 1 []).1 :=
  claim_C6 (mkRat 1 10) (by decide) cands6 1 ⟨9, [(mkRat 17 20, V3.zero)]⟩ (by decide)
    (mkRat 17 20, V3.zero) (by decide) (by decide)

/-- C6 counterexample: scanning the candidates of `cands6` (distances
1, 19/20, 17/20 with `dr = 1/10`) returns the pair of candidate 7 at
distance 1, although the final minimum is 17/20 and
`1 > 17/20 + 1/10`: the returned set is NOT exactly the pairs within
`d_min + dr`. -/
theorem claim_C6_cex :
    ((7 : ℕ), ((1 : ℚ), V3.zero)) ∈
      (get_nearest_neighbors_scan (mkRat 1 10) cands6 1 []).1 ∧
    qadd (get_nearest_neighbors_scan (mkRat 1 10) cands6 1 []).2 (mkRat 1 10) < 1 := by
  decide
